import Mathlib

/-!
Shallow embedding of the deque from `src/deque/deque.h` (template `deque_t<T>`
instantiated at `T = int`, as in `src/deque/main.cpp`) together with the
malloc/free allocator from `src/deque/allocator.h`.

Nodes live in an explicit heap: a list of cells indexed by address.  `malloc`
appends a fresh cell, `free` clears a cell.  A `node_t*` is an `Option Nat`
(`none` = `nullptr`).  Every pointer dereference performed by the C++ code is
modelled by `derefRead` / `derefWrite`, which fail on a null or freed pointer,
so null dereferences and use-after-free are visible as error outcomes.
-/

/-- Mirrors `deque_t::node_t`: one stored value plus `prev`/`next` links. -/
structure node_t where
  value : Int
  prev : Option Nat
  next : Option Nat
deriving DecidableEq, Repr

/-- The heap: cell `a` holds `some node` when allocated and live, `none` when
never allocated or freed. -/
abbrev Heap := List (Option node_t)

/-- Error outcomes.  `emptyContainer` models `throw std::exception("Deque is empty")`,
`iteratorOutOfRange` the iterator exceptions, `nullDeref` a dereference of a
null pointer (undefined behaviour in the C++ source), `useAfterFree` a
dereference of a freed cell, `outOfMemory` a propagated allocation failure
(never produced by this code), `fuelExhausted` loop-fuel exhaustion. -/
inductive Err where
  | emptyContainer
  | iteratorOutOfRange
  | nullDeref
  | useAfterFree
  | outOfMemory
  | fuelExhausted
deriving DecidableEq, Repr

/-- Read the cell at address `a` (no pointer involved; helper). -/
def readNode (h : Heap) (a : Nat) : Option node_t :=
  (h[a]?).getD none

/-- Dereference a `node_t*` for reading, as every `curNode->field` read does. -/
def derefRead (h : Heap) (p : Option Nat) : Except Err node_t :=
  match p with
  | none => .error .nullDeref
  | some a =>
    match readNode h a with
    | none => .error .useAfterFree
    | some nd => .ok nd

/-- Dereference a `node_t*` for a field assignment `p->field = v`. -/
def derefWrite (h : Heap) (p : Option Nat) (f : node_t → node_t) : Except Err Heap :=
  match p with
  | none => .error .nullDeref
  | some a =>
    match readNode h a with
    | none => .error .useAfterFree
    | some nd => .ok (h.set a (some (f nd)))

/-- Mirrors `my_allocator_t::alloc`, i.e. `return malloc(size);`: on success a
fresh cell (uninitialised contents) and its address, on failure the null
pointer — `malloc` does not throw and the deque never checks the result. -/
def mallocNode (allocOk : Bool) (h : Heap) : Heap × Option Nat :=
  if allocOk then (h ++ [some ⟨0, none, none⟩], some h.length) else (h, none)

/-- Mirrors `my_allocator_t::del`, i.e. `free(data)`: clears the cell;
`free(nullptr)` is a no-op. -/
def freeNode (h : Heap) (p : Option Nat) : Heap :=
  match p with
  | none => h
  | some a => h.set a none

/-- Mirrors the data members of `deque_t`: `head`, `tail`, `size`. -/
structure deque_t where
  head : Option Nat
  tail : Option Nat
  size : Nat
deriving DecidableEq, Repr

/-- The default-constructed deque: `head(nullptr), tail(nullptr), size(0)`. -/
def emptyDeque : deque_t := ⟨none, none, 0⟩

/-- Mirrors `deque_t::IsEmpty`: `return head == nullptr;`. -/
def deque_t.IsEmpty (d : deque_t) : Bool :=
  d.head = none

/-- Mirrors `deque_t::Size`: `return size;`. -/
def deque_t.Size (d : deque_t) : Nat :=
  d.size

/-- Mirrors `deque_t::GetFront`: `if (!head) throw; return head->value;`. -/
def deque_t.GetFront (h : Heap) (d : deque_t) : Except Err Int :=
  match d.head with
  | none => .error .emptyContainer
  | some a =>
    match readNode h a with
    | none => .error .useAfterFree
    | some nd => .ok nd.value

/-- Mirrors `deque_t::GetBack`: `if (!tail) throw; return tail->value;`. -/
def deque_t.GetBack (h : Heap) (d : deque_t) : Except Err Int :=
  match d.tail with
  | none => .error .emptyContainer
  | some a =>
    match readNode h a with
    | none => .error .useAfterFree
    | some nd => .ok nd.value

/-- Mirrors `deque_t::PushFront` line by line: allocate, assign the three
fields of `*tmp`, then `if (head) head->prev = tmp;`, `head = tmp;`,
`if (tail == nullptr) tail = head;`, `size++`. -/
def deque_t.PushFront (allocOk : Bool) (h : Heap) (d : deque_t) (x : Int) :
    Except Err (Heap × deque_t) :=
  let pr := mallocNode allocOk h
  let tmp := pr.2
  match derefWrite pr.1 tmp (fun nd => { nd with value := x }) with
  | .error e => .error e
  | .ok h2 =>
    match derefWrite h2 tmp (fun nd => { nd with next := d.head }) with
    | .error e => .error e
    | .ok h3 =>
      match derefWrite h3 tmp (fun nd => { nd with prev := none }) with
      | .error e => .error e
      | .ok h4 =>
        match (match d.head with
               | some _ => derefWrite h4 d.head (fun nd => { nd with prev := tmp })
               | none => .ok h4) with
        | .error e => .error e
        | .ok h5 =>
          .ok (h5, ⟨tmp, if d.tail = none then tmp else d.tail, d.size + 1⟩)

/-- Mirrors `deque_t::PushBack` line by line: allocate, assign the three
fields of `*tmp`, then `if (tail) tail->next = tmp;`, `tail = tmp;`,
`if (head == nullptr) head = tail;`, `size++`. -/
def deque_t.PushBack (allocOk : Bool) (h : Heap) (d : deque_t) (x : Int) :
    Except Err (Heap × deque_t) :=
  let pr := mallocNode allocOk h
  let tmp := pr.2
  match derefWrite pr.1 tmp (fun nd => { nd with value := x }) with
  | .error e => .error e
  | .ok h2 =>
    match derefWrite h2 tmp (fun nd => { nd with next := none }) with
    | .error e => .error e
    | .ok h3 =>
      match derefWrite h3 tmp (fun nd => { nd with prev := d.tail }) with
      | .error e => .error e
      | .ok h4 =>
        match (match d.tail with
               | some _ => derefWrite h4 d.tail (fun nd => { nd with next := tmp })
               | none => .ok h4) with
        | .error e => .error e
        | .ok h5 =>
          .ok (h5, ⟨if d.head = none then tmp else d.head, tmp, d.size + 1⟩)

/-- Mirrors `deque_t::PopFront`: `if (head == nullptr) throw;` then
`tmp = head; head = head->next; alloc.del(tmp);` then
`if (head == nullptr) tail = nullptr; else head->prev = nullptr; size--;`. -/
def deque_t.PopFront (h : Heap) (d : deque_t) : Except Err (Heap × deque_t) :=
  match d.head with
  | none => .error .emptyContainer
  | some a =>
    match readNode h a with
    | none => .error .useAfterFree
    | some nd =>
      let h1 := freeNode h (some a)
      match nd.next with
      | none => .ok (h1, ⟨none, none, d.size - 1⟩)
      | some b =>
        match derefWrite h1 (some b) (fun m => { m with prev := none }) with
        | .error e => .error e
        | .ok h2 => .ok (h2, ⟨some b, d.tail, d.size - 1⟩)

/-- Mirrors `deque_t::PopBack`: `if (tail == nullptr) throw;` then
`tmp = tail; tail = tail->prev; alloc.del(tmp);` then
`if (tail == nullptr) head = nullptr; else tail->next = nullptr; size--;`. -/
def deque_t.PopBack (h : Heap) (d : deque_t) : Except Err (Heap × deque_t) :=
  match d.tail with
  | none => .error .emptyContainer
  | some a =>
    match readNode h a with
    | none => .error .useAfterFree
    | some nd =>
      let h1 := freeNode h (some a)
      match nd.prev with
      | none => .ok (h1, ⟨none, none, d.size - 1⟩)
      | some b =>
        match derefWrite h1 (some b) (fun m => { m with next := none }) with
        | .error e => .error e
        | .ok h2 => .ok (h2, ⟨d.head, some b, d.size - 1⟩)

/-- Mirrors `deque_t::AddOtherDeque(deque_t&&)` (transfer semantics): if this
deque is empty, take over the other deque's fields wholesale; otherwise if the
other is non-empty, splice `tail->next = deque.head; deque.head->prev = tail;
tail = deque.tail; size += deque.size;` and zero the other's fields.  Returns
the new heap, the updated receiver and the updated argument. -/
def deque_t.AddOtherDequeMove (h : Heap) (d other : deque_t) :
    Except Err (Heap × deque_t × deque_t) :=
  match d.tail with
  | none =>
    .ok (h, ⟨other.head, other.tail, other.size⟩, ⟨none, none, 0⟩)
  | some t =>
    match other.head with
    | none => .ok (h, d, other)
    | some oh =>
      match derefWrite h (some t) (fun nd => { nd with next := some oh }) with
      | .error e => .error e
      | .ok h1 =>
        match derefWrite h1 (some oh) (fun nd => { nd with prev := some t }) with
        | .error e => .error e
        | .ok h2 =>
          .ok (h2, ⟨d.head, other.tail, d.size + other.size⟩, ⟨none, none, 0⟩)

/-- Mirrors `deque_t::begin`: `return iterator(head);`.  An iterator is its
`curNode` pointer, so we represent it as `Option Nat`. -/
def deque_t.beginIter (d : deque_t) : Option Nat :=
  d.head

/-- Mirrors `deque_t::end`: `return iterator(nullptr);` (the sentinel). -/
def endIter : Option Nat :=
  none

/-- Mirrors `deque_t::rbegin`: `return reverse_iterator(tail);`. -/
def deque_t.rbeginIter (d : deque_t) : Option Nat :=
  d.tail

/-- Mirrors `deque_t::rend`: `return reverse_iterator(nullptr);`. -/
def rendIter : Option Nat :=
  none

/-- Mirrors `iterator::operator==`: `return curNode == iter.curNode;`. -/
def iterEq (i j : Option Nat) : Bool :=
  i = j

/-- Mirrors `iterator::operator++` (prefix): throw on the sentinel
(`"Trying to use end iterator"`), else `curNode = curNode->next`. -/
def iterInc (h : Heap) (cur : Option Nat) : Except Err (Option Nat) :=
  match cur with
  | none => .error .iteratorOutOfRange
  | some a =>
    match readNode h a with
    | none => .error .useAfterFree
    | some nd => .ok nd.next

/-- Mirrors `iterator::operator--` (prefix) exactly as written: the guard
`if (curNode->prev == nullptr) throw` dereferences `curNode` FIRST, so when
`curNode` is the sentinel (`nullptr`) the guard itself is a null dereference;
the subsequent `if (curNode == nullptr) curNode = tail;` branch is therefore
unreachable.  `tl` is the deque's `tail` pointer that branch would use. -/
def iterDec (h : Heap) (tl : Option Nat) (cur : Option Nat) : Except Err (Option Nat) :=
  match derefRead h cur with
  | .error e => .error e
  | .ok nd =>
    if nd.prev = none then .error .iteratorOutOfRange
    else
      match cur with
      | none => .ok tl
      | some _ => .ok nd.prev

/-- Mirrors `iterator::operator*`: throw on the sentinel
(`"Try to use end iterator"`), else return `curNode->value`. -/
def iterDeref (h : Heap) (cur : Option Nat) : Except Err Int :=
  match cur with
  | none => .error .iteratorOutOfRange
  | some a =>
    match readNode h a with
    | none => .error .useAfterFree
    | some nd => .ok nd.value

/-- Mirrors `reverse_iterator::operator++` (prefix): throw on the sentinel,
else `curNode = curNode->prev`. -/
def riterInc (h : Heap) (cur : Option Nat) : Except Err (Option Nat) :=
  match cur with
  | none => .error .iteratorOutOfRange
  | some a =>
    match readNode h a with
    | none => .error .useAfterFree
    | some nd => .ok nd.prev

/-- The values visited by the loop `for (it = cur; it != end(); ++it) use *it;`
following `next` pointers, with fuel bounding the number of steps.  Returns
`none` if the fuel runs out or a dereference fails. -/
def iterCollect (h : Heap) : Option Nat → Nat → Option (List Int)
  | none, _ => some []
  | some _, 0 => none
  | some a, fuel + 1 =>
    match readNode h a with
    | none => none
    | some nd => (iterCollect h nd.next fuel).map (fun l => nd.value :: l)

/-- The values visited by the loop `for (it = rbegin(); it != rend(); ++it)`,
following `prev` pointers from the tail. -/
def revCollect (h : Heap) : Option Nat → Nat → Option (List Int)
  | none, _ => some []
  | some _, 0 => none
  | some a, fuel + 1 =>
    match readNode h a with
    | none => none
    | some nd => (revCollect h nd.prev fuel).map (fun l => nd.value :: l)

/-- Decidable doubly-linked-segment check: starting at pointer `cur` whose
node's `prev` link must be `pv`, the addresses `A` are traversed in order via
`next` links, and the `next` link of the last node is `stop` (`cur = stop`
when `A` is empty). -/
def chainSeg (h : Heap) : Option Nat → Option Nat → List Nat → Option Nat → Bool
  | _, cur, [], stop => cur = stop
  | pv, cur, a :: rest, stop =>
    cur = some a &&
      match readNode h a with
      | none => false
      | some nd => decide (nd.prev = pv) && chainSeg h (some a) nd.next rest stop

/-- Decidable reversed-chain check: starting at pointer `cur` whose node's
`next` link must be `nx`, the addresses `A` are traversed in order via `prev`
links, ending with a `prev` link equal to `none`. -/
def rchain (h : Heap) : Option Nat → Option Nat → List Nat → Bool
  | _, cur, [] => cur = none
  | nx, cur, a :: rest =>
    cur = some a &&
      match readNode h a with
      | none => false
      | some nd => decide (nd.next = nx) && rchain h (some a) nd.prev rest

/-- Decidable check that the nodes at addresses `A` hold exactly the values `L`. -/
def valsMatch (h : Heap) : List Nat → List Int → Bool
  | [], [] => true
  | a :: as, v :: vs =>
    (match readNode h a with
     | none => false
     | some nd => decide (nd.value = v)) && valsMatch h as vs
  | _, _ => false

/-- The pointer to the last node of `A`, or `pv` when `A` is empty (used to
state chain-append lemmas). -/
def lastPtr (pv : Option Nat) (A : List Nat) : Option Nat :=
  match A.getLast? with
  | some a => some a
  | none => pv

/-- Well-formed deque state: the heap cells at the (pairwise distinct)
addresses `A` form the doubly linked chain from `d.head` to `d.tail`, holding
the values `L` front to back, and `d.size` is the number of nodes.  This is
the representation invariant of `deque_t` relating a concrete heap state to
the abstract element sequence. -/
abbrev GoodState (h : Heap) (d : deque_t) (A : List Nat) (L : List Int) : Prop :=
  chainSeg h none d.head A none = true ∧
  d.tail = lastPtr none A ∧
  d.size = A.length ∧
  A.Nodup ∧
  valsMatch h A L = true

/-- One client operation on a deque, for stating properties over arbitrary
operation sequences (allocation succeeding, as in any run that does not
exhaust memory). -/
inductive Op where
  | pushFront (x : Int)
  | pushBack (x : Int)
  | popFront
  | popBack
deriving DecidableEq, Repr

/-- Execute one operation. -/
def opStep (o : Op) (h : Heap) (d : deque_t) : Except Err (Heap × deque_t) :=
  match o with
  | .pushFront x => deque_t.PushFront true h d x
  | .pushBack x => deque_t.PushBack true h d x
  | .popFront => deque_t.PopFront h d
  | .popBack => deque_t.PopBack h d

/-- Execute a sequence of operations, propagating the first exception. -/
def runFrom : List Op → Heap → deque_t → Except Err (Heap × deque_t)
  | [], h, d => .ok (h, d)
  | o :: os, h, d =>
    match opStep o h d with
    | .error e => .error e
    | .ok (h2, d2) => runFrom os h2 d2

/-- Abstract (specification-level) effect of one operation on the element
sequence; `none` when the operation pops from an empty deque. -/
def specStep (L : List Int) : Op → Option (List Int)
  | .pushFront x => some (x :: L)
  | .pushBack x => some (L ++ [x])
  | .popFront => match L with | [] => none | _ :: t => some t
  | .popBack => match L with | [] => none | _ :: _ => some L.dropLast

/-- Abstract effect of an operation sequence. -/
def specRun : List Int → List Op → Option (List Int)
  | L, [] => some L
  | L, o :: os =>
    match specStep L o with
    | none => none
    | some L2 => specRun L2 os

/-- Number of push operations in a sequence. -/
def cntPush : List Op → Nat
  | [] => 0
  | .pushFront _ :: os => cntPush os + 1
  | .pushBack _ :: os => cntPush os + 1
  | .popFront :: os => cntPush os
  | .popBack :: os => cntPush os

/-- Number of pop operations in a sequence. -/
def cntPop : List Op → Nat
  | [] => 0
  | .pushFront _ :: os => cntPop os
  | .pushBack _ :: os => cntPop os
  | .popFront :: os => cntPop os + 1
  | .popBack :: os => cntPop os + 1

/-- Mirrors the loop body of the copy constructor and copy assignment:
`for (auto& i : deque) PushBack(i);` — walk the source chain via the
iterator, pushing each value onto `acc`. -/
def copyLoop (h : Heap) (acc : deque_t) : Option Nat → Nat → Except Err (Heap × deque_t)
  | none, _ => .ok (h, acc)
  | some _, 0 => .error .fuelExhausted
  | some a, fuel + 1 =>
    match readNode h a with
    | none => .error .useAfterFree
    | some nd =>
      match deque_t.PushBack true h acc nd.value with
      | .error e => .error e
      | .ok (h2, acc2) => copyLoop h2 acc2 nd.next fuel

/-- Mirrors the copy constructor `deque_t(deque_t const&)`: start from the
empty deque and push back every element of the source. -/
def CopyDeque (h : Heap) (src : deque_t) (fuel : Nat) : Except Err (Heap × deque_t) :=
  copyLoop h emptyDeque src.head fuel

/-- Mirrors `deque_t::Clear`: `while (head) PopBack();`, with fuel. -/
def ClearLoop (h : Heap) (d : deque_t) : Nat → Except Err (Heap × deque_t)
  | 0 => if d.head = none then .ok (h, d) else .error .fuelExhausted
  | fuel + 1 =>
    if d.head = none then .ok (h, d)
    else
      match deque_t.PopBack h d with
      | .error e => .error e
      | .ok (h2, d2) => ClearLoop h2 d2 fuel

/-- Mirrors the copy assignment `operator=(deque_t const&)`: `Clear();` then
`for (auto& i : deque) PushBack(i);`. -/
def CopyAssign (h : Heap) (dst src : deque_t) (clearFuel copyFuel : Nat) :
    Except Err (Heap × deque_t) :=
  match ClearLoop h dst clearFuel with
  | .error e => .error e
  | .ok (h1, d1) => copyLoop h1 d1 src.head copyFuel

/-- Keep the old state when a call raises (the caller catches the exception;
the callee performed no mutation before the throw). -/
def tryOp (r : Except Err (Heap × deque_t)) (s : Heap × deque_t) : Heap × deque_t :=
  match r with
  | .ok s2 => s2
  | .error _ => s

/-- Deque states reachable from the default-constructed deque (empty heap) by
any sequence of successful push/pop operations. -/
inductive Reach : Heap → deque_t → Prop
  | init : Reach [] emptyDeque
  | pushF {h d h2 d2 x} : Reach h d →
      deque_t.PushFront true h d x = .ok (h2, d2) → Reach h2 d2
  | pushB {h d h2 d2 x} : Reach h d →
      deque_t.PushBack true h d x = .ok (h2, d2) → Reach h2 d2
  | popF {h d h2 d2} : Reach h d →
      deque_t.PopFront h d = .ok (h2, d2) → Reach h2 d2
  | popB {h d h2 d2} : Reach h d →
      deque_t.PopBack h d = .ok (h2, d2) → Reach h2 d2

/-! Basic heap lemmas. -/

theorem readNode_lt {h : Heap} {a : Nat} {nd : node_t}
    (hr : readNode h a = some nd) : a < h.length := by
  by_contra hle
  have : h[a]? = none := List.getElem?_len_le (Nat.le_of_not_lt hle)
  simp [readNode, this] at hr

theorem readNode_set_self {h : Heap} {a : Nat} (ha : a < h.length)
    (x : Option node_t) : readNode (h.set a x) a = x := by
  simp [readNode, List.getElem?_set_self ha]

theorem readNode_set_ne {h : Heap} {a b : Nat} (hne : a ≠ b)
    (x : Option node_t) : readNode (h.set a x) b = readNode h b := by
  simp [readNode, List.getElem?_set_ne hne]

theorem readNode_set_none {h : Heap} {a : Nat} :
    readNode (h.set a none) a = none := by
  rcases Nat.lt_or_ge a h.length with hlt | hge
  · simp [readNode, List.getElem?_set_self hlt]
  · have hs : h.set a none = h := List.set_eq_of_length_le hge
    have : h[a]? = none := List.getElem?_len_le hge
    simp [readNode, hs, this]

theorem readNode_append_lt {h t : Heap} {a : Nat} (ha : a < h.length) :
    readNode (h ++ t) a = readNode h a := by
  simp [readNode, List.getElem?_append, ha]

theorem readNode_append_self {h : Heap} (x : Option node_t) :
    readNode (h ++ [x]) h.length = x := by
  simp [readNode, List.getElem?_concat_length]

theorem set_append_self (h : Heap) (x y : Option node_t) :
    (h ++ [x]).set h.length y = h ++ [y] := by
  induction h with
  | nil => simp
  | cons c t ih => simp [List.set, ih]

theorem length_freeNode (h : Heap) (p : Option Nat) :
    (freeNode h p).length = h.length := by
  cases p <;> simp [freeNode]

theorem readNode_freeNode_ne {h : Heap} {a b : Nat} (hne : a ≠ b) :
    readNode (freeNode h (some a)) b = readNode h b := by
  simp [freeNode, readNode_set_ne hne]

theorem derefWrite_some {h : Heap} {a : Nat} {nd : node_t}
    (hr : readNode h a = some nd) (f : node_t → node_t) :
    derefWrite h (some a) f = .ok (h.set a (some (f nd))) := by
  simp [derefWrite, hr]

theorem writeFresh (h : Heap) (g : node_t) (f : node_t → node_t) :
    derefWrite (h ++ [some g]) (some h.length) f = .ok (h ++ [some (f g)]) := by
  rw [derefWrite_some (readNode_append_self (some g)) f, set_append_self]

/-! Chain-segment lemmas. -/

theorem chainSeg_nil {h : Heap} {pv cur stop : Option Nat} :
    chainSeg h pv cur [] stop = true ↔ cur = stop := by
  simp [chainSeg]

theorem chainSeg_stable {h h2 : Heap} :
    ∀ {A : List Nat} {pv cur stop : Option Nat},
    (∀ a ∈ A, readNode h2 a = readNode h a) →
    chainSeg h pv cur A stop = true → chainSeg h2 pv cur A stop = true := by
  intro A
  induction A with
  | nil => intro pv cur stop _ hc; simpa [chainSeg] using hc
  | cons a rest ih =>
    intro pv cur stop hst hc
    simp only [chainSeg, Bool.and_eq_true, decide_eq_true_eq] at hc ⊢
    obtain ⟨hcur, hrest⟩ := hc
    refine ⟨hcur, ?_⟩
    rw [hst a (by simp)]
    cases hr : readNode h a with
    | none => rw [hr] at hrest; exact absurd hrest (by simp)
    | some nd =>
      rw [hr] at hrest
      simp only [Bool.and_eq_true, decide_eq_true_eq] at hrest
      simp only [Bool.and_eq_true, decide_eq_true_eq]
      exact ⟨hrest.1, ih (fun b hb => hst b (by simp [hb])) hrest.2⟩

theorem chainSeg_read_mem {h : Heap} :
    ∀ {A : List Nat} {pv cur stop : Option Nat},
    chainSeg h pv cur A stop = true →
    ∀ a ∈ A, ∃ nd, readNode h a = some nd := by
  intro A
  induction A with
  | nil => intro _ _ _ _ a ha; simp at ha
  | cons b rest ih =>
    intro pv cur stop hc a ha
    simp only [chainSeg, Bool.and_eq_true, decide_eq_true_eq] at hc
    obtain ⟨_, hrest⟩ := hc
    cases hr : readNode h b with
    | none => rw [hr] at hrest; exact absurd hrest (by simp)
    | some nd =>
      rw [hr] at hrest
      simp only [Bool.and_eq_true, decide_eq_true_eq] at hrest
      rcases List.mem_cons.mp ha with rfl | hmem
      · exact ⟨nd, hr⟩
      · exact ih hrest.2 a hmem

theorem chainSeg_bounded {h : Heap} {A : List Nat} {pv cur stop : Option Nat}
    (hc : chainSeg h pv cur A stop = true) :
    ∀ a ∈ A, a < h.length := by
  intro a ha
  obtain ⟨nd, hr⟩ := chainSeg_read_mem hc a ha
  exact readNode_lt hr

theorem lastPtr_cons (pv : Option Nat) (a : Nat) (rest : List Nat) :
    lastPtr pv (a :: rest) = lastPtr (some a) rest := by
  cases rest with
  | nil => simp [lastPtr]
  | cons b t =>
    have hs : (b :: t).getLast?.isSome := by simp [List.getLast?_isSome]
    obtain ⟨x, hx⟩ := Option.isSome_iff_exists.mp hs
    simp [lastPtr, List.getLast?_cons_cons, hx]

theorem lastPtr_nonempty {A : List Nat} (hA : A ≠ []) (pv pv' : Option Nat) :
    lastPtr pv A = lastPtr pv' A := by
  have : A.getLast?.isSome := by
    cases A with
    | nil => exact absurd rfl hA
    | cons a t => simp [List.getLast?_isSome]
  obtain ⟨x, hx⟩ := Option.isSome_iff_exists.mp this
  simp [lastPtr, hx]

theorem lastPtr_none_iff {A : List Nat} : lastPtr none A = none ↔ A = [] := by
  cases hA : A.getLast? with
  | none => simp [lastPtr, hA, List.getLast?_eq_none_iff.mp hA]
  | some x =>
    have : A ≠ [] := by
      intro he; rw [he] at hA; simp at hA
    simp [lastPtr, hA, this]

theorem chainSeg_append {h : Heap} :
    ∀ {A : List Nat} {B : List Nat} {pv cur mid stop : Option Nat},
    chainSeg h pv cur A mid = true →
    chainSeg h (lastPtr pv A) mid B stop = true →
    chainSeg h pv cur (A ++ B) stop = true := by
  intro A
  induction A with
  | nil =>
    intro B pv cur mid stop hA hB
    rw [chainSeg_nil.mp hA]
    simpa [lastPtr] using hB
  | cons a rest ih =>
    intro B pv cur mid stop hA hB
    simp only [chainSeg, Bool.and_eq_true, decide_eq_true_eq] at hA ⊢
    obtain ⟨hcur, hrest⟩ := hA
    refine ⟨hcur, ?_⟩
    cases hr : readNode h a with
    | none => rw [hr] at hrest; exact absurd hrest (by simp)
    | some nd =>
      rw [hr] at hrest
      simp only [Bool.and_eq_true, decide_eq_true_eq] at hrest
      simp only [Bool.and_eq_true, decide_eq_true_eq]
      rw [lastPtr_cons] at hB
      exact ⟨hrest.1, ih hrest.2 hB⟩

theorem chainSeg_snoc {h : Heap} :
    ∀ {A : List Nat} {t : Nat} {pv cur stop : Option Nat},
    chainSeg h pv cur (A ++ [t]) stop = true ↔
      ∃ nd, chainSeg h pv cur A (some t) = true ∧ readNode h t = some nd ∧
        nd.prev = lastPtr pv A ∧ nd.next = stop := by
  intro A
  induction A with
  | nil =>
    intro t pv cur stop
    constructor
    · intro hc
      simp only [List.nil_append, chainSeg, Bool.and_eq_true, decide_eq_true_eq] at hc
      obtain ⟨hcur, hrest⟩ := hc
      cases hr : readNode h t with
      | none => rw [hr] at hrest; exact absurd hrest (by simp)
      | some nd =>
        rw [hr] at hrest
        simp only [Bool.and_eq_true, decide_eq_true_eq, chainSeg_nil] at hrest
        exact ⟨nd, chainSeg_nil.mpr hcur, rfl, by simpa [lastPtr] using hrest.1, hrest.2⟩
    · rintro ⟨nd, hA, hr, hprev, hnext⟩
      simp only [List.nil_append, chainSeg, Bool.and_eq_true, decide_eq_true_eq]
      refine ⟨chainSeg_nil.mp hA, ?_⟩
      rw [hr]
      simp only [Bool.and_eq_true, decide_eq_true_eq, chainSeg_nil]
      exact ⟨by simpa [lastPtr] using hprev, hnext⟩
  | cons a rest ih =>
    intro t pv cur stop
    constructor
    · intro hc
      simp only [List.cons_append, chainSeg, Bool.and_eq_true, decide_eq_true_eq] at hc
      obtain ⟨hcur, hrest⟩ := hc
      cases hr : readNode h a with
      | none => rw [hr] at hrest; exact absurd hrest (by simp)
      | some nd =>
        rw [hr] at hrest
        simp only [Bool.and_eq_true, decide_eq_true_eq] at hrest
        obtain ⟨nd2, hA2, hr2, hprev2, hnext2⟩ := ih.mp hrest.2
        refine ⟨nd2, ?_, hr2, ?_, hnext2⟩
        · simp only [chainSeg, Bool.and_eq_true, decide_eq_true_eq]
          refine ⟨hcur, ?_⟩
          rw [hr]
          simp only [Bool.and_eq_true, decide_eq_true_eq]
          exact ⟨hrest.1, hA2⟩
        · rw [hprev2, lastPtr_cons]
    · rintro ⟨nd2, hA, hr2, hprev2, hnext2⟩
      simp only [chainSeg, Bool.and_eq_true, decide_eq_true_eq] at hA
      obtain ⟨hcur, hrest⟩ := hA
      simp only [List.cons_append, chainSeg, Bool.and_eq_true, decide_eq_true_eq]
      refine ⟨hcur, ?_⟩
      cases hr : readNode h a with
      | none => rw [hr] at hrest; exact absurd hrest (by simp)
      | some nd =>
        rw [hr] at hrest
        simp only [Bool.and_eq_true, decide_eq_true_eq] at hrest
        simp only [Bool.and_eq_true, decide_eq_true_eq]
        refine ⟨hrest.1, ih.mpr ⟨nd2, hrest.2, hr2, ?_, hnext2⟩⟩
        rw [hprev2, lastPtr_cons]

/-! Value-list lemmas. -/

theorem valsMatch_nil_iff {h : Heap} {L : List Int} :
    valsMatch h [] L = true ↔ L = [] := by
  cases L <;> simp [valsMatch]

theorem valsMatch_cons_iff {h : Heap} {a : Nat} {rest : List Nat} {L : List Int} :
    valsMatch h (a :: rest) L = true ↔
      ∃ v vs nd, L = v :: vs ∧ readNode h a = some nd ∧ nd.value = v ∧
        valsMatch h rest vs = true := by
  cases L with
  | nil =>
    simp only [valsMatch]
    constructor
    · intro hv; exact absurd hv (by simp)
    · rintro ⟨v, vs, nd, hL, _⟩; exact absurd hL (by simp)
  | cons v vs =>
    simp only [valsMatch, Bool.and_eq_true]
    constructor
    · rintro ⟨hval, hrest⟩
      cases hr : readNode h a with
      | none => rw [hr] at hval; simp at hval
      | some nd =>
        rw [hr] at hval
        exact ⟨v, vs, nd, rfl, rfl, by simpa using hval, hrest⟩
    · rintro ⟨w, ws, nd, hL, hr, hval, hrest⟩
      obtain ⟨rfl, rfl⟩ : w = v ∧ ws = vs := by
        constructor <;> simp [List.cons.injEq] at hL <;> tauto
      rw [hr]
      exact ⟨by simpa using hval, hrest⟩

theorem valsMatch_length {h : Heap} :
    ∀ {A : List Nat} {L : List Int}, valsMatch h A L = true →
    A.length = L.length := by
  intro A
  induction A with
  | nil =>
    intro L hv
    simp [valsMatch_nil_iff.mp hv]
  | cons a rest ih =>
    intro L hv
    obtain ⟨v, vs, nd, rfl, _, _, hrest⟩ := valsMatch_cons_iff.mp hv
    simp [ih hrest]

theorem valsMatch_stable {h h2 : Heap} :
    ∀ {A : List Nat} {L : List Int},
    (∀ a ∈ A, (readNode h2 a).map node_t.value = (readNode h a).map node_t.value) →
    valsMatch h A L = true → valsMatch h2 A L = true := by
  intro A
  induction A with
  | nil =>
    intro L _ hv
    rw [valsMatch_nil_iff.mp hv]
    simp [valsMatch]
  | cons a rest ih =>
    intro L hst hv
    obtain ⟨v, vs, nd, rfl, hr, hval, hrest⟩ := valsMatch_cons_iff.mp hv
    have hmap := hst a (by simp)
    rw [hr] at hmap
    cases hr2 : readNode h2 a with
    | none => rw [hr2] at hmap; simp at hmap
    | some nd2 =>
      rw [hr2] at hmap
      have hvv : nd2.value = nd.value := by
        have := congrArg (fun o => Option.getD o 0) hmap
        simpa using this
      refine valsMatch_cons_iff.mpr ⟨v, vs, nd2, rfl, hr2, ?_, ?_⟩
      · rw [hvv, hval]
      · exact ih (fun b hb => hst b (by simp [hb])) hrest

theorem valsMatch_snoc {h : Heap} :
    ∀ {A : List Nat} {L : List Int} {t : Nat} {v : Int},
    valsMatch h (A ++ [t]) (L ++ [v]) = true ↔
      (valsMatch h A L = true ∧ ∃ nd, readNode h t = some nd ∧ nd.value = v) := by
  intro A
  induction A with
  | nil =>
    intro L t v
    constructor
    · intro hv
      simp only [List.nil_append] at hv
      obtain ⟨w, ws, nd, hL, hr, hval, hrest⟩ := valsMatch_cons_iff.mp hv
      rw [valsMatch_nil_iff.mp hrest] at hL
      obtain ⟨rfl, rfl⟩ : L = [] ∧ w = v := by
        cases L with
        | nil => simpa [eq_comm] using hL
        | cons z zs => simp at hL
      exact ⟨by simp [valsMatch], nd, hr, hval⟩
    · rintro ⟨hv, nd, hr, hval⟩
      rw [valsMatch_nil_iff.mp hv]
      simp only [List.nil_append]
      exact valsMatch_cons_iff.mpr ⟨v, [], nd, rfl, hr, hval, by simp [valsMatch]⟩
  | cons a rest ih =>
    intro L t v
    constructor
    · intro hv
      simp only [List.cons_append] at hv
      obtain ⟨w, ws, nd, hL, hr, hval, hrest⟩ := valsMatch_cons_iff.mp hv
      cases L with
      | nil =>
        exfalso
        have h1 := valsMatch_length hrest
        have : ws = [] := by
          cases hL0 : ([] : List Int) ++ [v] with
          | nil => simp at hL0
          | cons z zs =>
            rw [hL0] at hL
            simp at hL0
            obtain ⟨rfl, rfl⟩ := hL0
            simp at hL
            exact hL.2
        rw [this] at h1
        simp at h1
      | cons u us =>
        rw [List.cons_append] at hL
        injection hL with h1 h2
        subst h1
        subst h2
        obtain ⟨hv1, hv2⟩ := ih.mp hrest
        exact ⟨valsMatch_cons_iff.mpr ⟨u, us, nd, rfl, hr, hval, hv1⟩, hv2⟩
    · rintro ⟨hv, nd, hr, hval⟩
      obtain ⟨w, ws, nd2, hL, hr2, hval2, hrest⟩ := valsMatch_cons_iff.mp hv
      subst hL
      simp only [List.cons_append]
      exact valsMatch_cons_iff.mpr
        ⟨w, ws ++ [v], nd2, rfl, hr2, hval2, ih.mpr ⟨hrest, nd, hr, hval⟩⟩

theorem valsMatch_reverse {h : Heap} :
    ∀ {A : List Nat} {L : List Int}, valsMatch h A L = true →
    valsMatch h A.reverse L.reverse = true := by
  intro A
  induction A with
  | nil =>
    intro L hv
    rw [valsMatch_nil_iff.mp hv]
    simp [valsMatch]
  | cons a rest ih =>
    intro L hv
    obtain ⟨v, vs, nd, rfl, hr, hval, hrest⟩ := valsMatch_cons_iff.mp hv
    simp only [List.reverse_cons]
    exact valsMatch_snoc.mpr ⟨ih hrest, nd, hr, hval⟩

/-! Chain reversal and traversal lemmas. -/

theorem rchain_nil {h : Heap} {nx cur : Option Nat} :
    rchain h nx cur [] = true ↔ cur = none := by
  simp [rchain]

theorem chain_rev_zip {h : Heap} :
    ∀ {A : List Nat} {pv cur : Option Nat} {P : List Nat},
    chainSeg h pv cur A none = true → rchain h cur pv P = true →
    rchain h none (lastPtr pv A) (A.reverse ++ P) = true := by
  intro A
  induction A with
  | nil =>
    intro pv cur P hc hP
    rw [chainSeg_nil.mp hc] at hP
    simpa [lastPtr] using hP
  | cons a rest ih =>
    intro pv cur P hc hP
    simp only [chainSeg, Bool.and_eq_true, decide_eq_true_eq] at hc
    obtain ⟨hcur, hrest⟩ := hc
    cases hr : readNode h a with
    | none => rw [hr] at hrest; exact absurd hrest (by simp)
    | some nd =>
      rw [hr] at hrest
      simp only [Bool.and_eq_true, decide_eq_true_eq] at hrest
      obtain ⟨hprev, hch⟩ := hrest
      have hP2 : rchain h nd.next (some a) (a :: P) = true := by
        simp only [rchain, Bool.and_eq_true]
        refine ⟨by simp, ?_⟩
        rw [hr]
        simp only [Bool.and_eq_true, decide_eq_true_eq]
        rw [hprev]
        subst hcur
        exact ⟨trivial, hP⟩
      have := ih hch hP2
      rw [lastPtr_cons]
      simpa [List.append_assoc] using this

theorem chain_rev {h : Heap} {A : List Nat} {hd : Option Nat}
    (hc : chainSeg h none hd A none = true) :
    rchain h none (lastPtr none A) A.reverse = true := by
  have := chain_rev_zip (P := []) hc (by simp [rchain])
  simpa using this

theorem collect_of_chain {h : Heap} :
    ∀ {A : List Nat} {pv cur : Option Nat} {L : List Int},
    chainSeg h pv cur A none = true → valsMatch h A L = true →
    iterCollect h cur A.length = some L := by
  intro A
  induction A with
  | nil =>
    intro pv cur L hc hv
    rw [chainSeg_nil.mp hc, valsMatch_nil_iff.mp hv]
    simp [iterCollect]
  | cons a rest ih =>
    intro pv cur L hc hv
    simp only [chainSeg, Bool.and_eq_true, decide_eq_true_eq] at hc
    obtain ⟨hcur, hrest⟩ := hc
    obtain ⟨v, vs, nd, rfl, hr, hval, hvs⟩ := valsMatch_cons_iff.mp hv
    rw [hr] at hrest
    simp only [Bool.and_eq_true, decide_eq_true_eq] at hrest
    subst hcur
    simp only [List.length_cons, iterCollect, hr]
    rw [ih hrest.2 hvs]
    simp [hval]

theorem revCollect_of_rchain {h : Heap} :
    ∀ {A : List Nat} {nx cur : Option Nat} {L : List Int},
    rchain h nx cur A = true → valsMatch h A L = true →
    revCollect h cur A.length = some L := by
  intro A
  induction A with
  | nil =>
    intro nx cur L hc hv
    rw [rchain_nil.mp hc, valsMatch_nil_iff.mp hv]
    simp [revCollect]
  | cons a rest ih =>
    intro nx cur L hc hv
    simp only [rchain, Bool.and_eq_true, decide_eq_true_eq] at hc
    obtain ⟨hcur, hrest⟩ := hc
    obtain ⟨v, vs, nd, rfl, hr, hval, hvs⟩ := valsMatch_cons_iff.mp hv
    rw [hr] at hrest
    simp only [Bool.and_eq_true, decide_eq_true_eq] at hrest
    subst hcur
    simp only [List.length_cons, revCollect, hr]
    rw [ih hrest.2 hvs]
    simp [hval]

theorem chain_head_none_iff {h : Heap} {A : List Nat} {hd : Option Nat}
    (hc : chainSeg h none hd A none = true) : hd = none ↔ A = [] := by
  cases A with
  | nil => simp [chainSeg_nil.mp hc]
  | cons a rest =>
    simp only [chainSeg, Bool.and_eq_true, decide_eq_true_eq] at hc
    simp [hc.1]

theorem chain_first_prev {h : Heap} {A : List Nat} {pv hd : Option Nat}
    {stop : Option Nat} (hc : chainSeg h pv hd A stop = true)
    {a : Nat} (ha : hd = some a) {nd : node_t} (hr : readNode h a = some nd) :
    A ≠ [] → nd.prev = pv := by
  intro hA
  cases A with
  | nil => exact absurd rfl hA
  | cons b rest =>
    simp only [chainSeg, Bool.and_eq_true, decide_eq_true_eq] at hc
    obtain ⟨hcur, hrest⟩ := hc
    rw [ha] at hcur
    have hab : a = b := by simpa using hcur
    subst hab
    rw [hr] at hrest
    simp only [Bool.and_eq_true, decide_eq_true_eq] at hrest
    exact hrest.1

theorem chain_last_next {h : Heap} {A : List Nat} {pv hd : Option Nat}
    (hc : chainSeg h pv hd A none = true)
    {t : Nat} (ht : A.getLast? = some t) {nd : node_t}
    (hr : readNode h t = some nd) : nd.next = none := by
  have hA : A ≠ [] := by
    intro he; rw [he] at ht; simp at ht
  obtain ⟨A2, rfl⟩ : ∃ A2, A = A2 ++ [t] := by
    refine ⟨A.dropLast, ?_⟩
    have := List.dropLast_append_getLast? t ht
    exact this.symm
  obtain ⟨nd2, _, hr2, _, hnext⟩ := chainSeg_snoc.mp hc
  rw [hr] at hr2
  obtain rfl : nd = nd2 := by simpa using hr2
  exact hnext

theorem chain_adjacent {h : Heap} :
    ∀ {A : List Nat} {pv cur : Option Nat},
    chainSeg h pv cur A none = true →
    ∀ i a b, A[i]? = some a → A[i + 1]? = some b →
    ∃ na nb, readNode h a = some na ∧ readNode h b = some nb ∧
      na.next = some b ∧ nb.prev = some a := by
  intro A
  induction A with
  | nil => intro pv cur _ i a b ha _; simp at ha
  | cons c rest ih =>
    intro pv cur hc i a b ha hb
    simp only [chainSeg, Bool.and_eq_true, decide_eq_true_eq] at hc
    obtain ⟨hcur, hrest⟩ := hc
    cases hr : readNode h c with
    | none => rw [hr] at hrest; exact absurd hrest (by simp)
    | some nd =>
      rw [hr] at hrest
      simp only [Bool.and_eq_true, decide_eq_true_eq] at hrest
      obtain ⟨hprev, hch⟩ := hrest
      cases i with
      | zero =>
        obtain rfl : c = a := by simpa using ha
        cases rest with
        | nil => simp at hb
        | cons b2 rest2 =>
          have hbb : b2 = b := by simpa using hb
          subst hbb
          simp only [chainSeg, Bool.and_eq_true, decide_eq_true_eq] at hch
          obtain ⟨hnx, hch2⟩ := hch
          cases hr2 : readNode h b2 with
          | none => rw [hr2] at hch2; exact absurd hch2 (by simp)
          | some nb =>
            rw [hr2] at hch2
            simp only [Bool.and_eq_true, decide_eq_true_eq] at hch2
            exact ⟨nd, nb, hr, rfl, hnx, hch2.1⟩
      | succ j =>
        have ha2 : rest[j]? = some a := by simpa using ha
        have hb2 : rest[j + 1]? = some b := by simpa using hb
        exact ih hch j a b ha2 hb2

theorem lastPtr_some_ne_none (c : Nat) (A : List Nat) :
    lastPtr (some c) A ≠ none := by
  cases hA : A.getLast? <;> simp [lastPtr, hA]

theorem chainSeg_cons_intro {h : Heap} {pv cur stop : Option Nat} {a : Nat}
    {rest : List Nat} {nd : node_t} (hcur : cur = some a)
    (hr : readNode h a = some nd) (hprev : nd.prev = pv)
    (hch : chainSeg h (some a) nd.next rest stop = true) :
    chainSeg h pv cur (a :: rest) stop = true := by
  simp only [chainSeg, Bool.and_eq_true, decide_eq_true_eq]
  refine ⟨hcur, ?_⟩
  rw [hr]
  simp only [Bool.and_eq_true, decide_eq_true_eq]
  exact ⟨hprev, hch⟩

theorem chainSeg_cons_elim {h : Heap} {pv cur stop : Option Nat} {a : Nat}
    {rest : List Nat} (hc : chainSeg h pv cur (a :: rest) stop = true) :
    cur = some a ∧ ∃ nd, readNode h a = some nd ∧ nd.prev = pv ∧
      chainSeg h (some a) nd.next rest stop = true := by
  simp only [chainSeg, Bool.and_eq_true, decide_eq_true_eq] at hc
  obtain ⟨hcur, hrest⟩ := hc
  refine ⟨hcur, ?_⟩
  cases hr : readNode h a with
  | none => rw [hr] at hrest; exact absurd hrest (by simp)
  | some nd =>
    rw [hr] at hrest
    simp only [Bool.and_eq_true, decide_eq_true_eq] at hrest
    exact ⟨nd, rfl, hrest.1, hrest.2⟩

/-! Operation correctness lemmas: each successful operation preserves the
representation invariant, with an explicit frame describing which heap cells
it may touch. -/

theorem pushFront_spec {h : Heap} {d : deque_t} {A : List Nat} {L : List Int}
    (x : Int) (hg : GoodState h d A L) :
    ∃ h5 d2, deque_t.PushFront true h d x = .ok (h5, d2) ∧
      GoodState h5 d2 (h.length :: A) (x :: L) ∧
      h5.length = h.length + 1 ∧
      (∀ b, b < h.length → b ∉ A → readNode h5 b = readNode h b) := by
  obtain ⟨hch, htl, hsz, hnd, hvm⟩ := hg
  cases hhd : d.head with
  | none =>
    have hA : A = [] := (chain_head_none_iff hch).mp hhd
    subst hA
    have hL : L = [] := valsMatch_nil_iff.mp hvm
    subst hL
    have htn : d.tail = none := by simpa [lastPtr] using htl
    refine ⟨h ++ [some (node_t.mk x none none)],
      ⟨some h.length, some h.length, d.size + 1⟩, ?_, ?_, by simp, ?_⟩
    · simp [deque_t.PushFront, mallocNode, writeFresh, hhd, htn]
    · refine ⟨?_, by simp [lastPtr], by simpa using hsz, by simp, ?_⟩
      · simp [chainSeg, readNode_append_self]
      · simp [valsMatch, readNode_append_self]
    · intro b hb _
      exact readNode_append_lt hb
  | some aH =>
    cases A with
    | nil =>
      rw [chainSeg_nil.mp hch] at hhd
      simp at hhd
    | cons a0 rest =>
      obtain ⟨hcur, ndH, hr, hprev, hchr⟩ := chainSeg_cons_elim hch
      rw [hhd] at hcur
      have ha0 : aH = a0 := by simpa using hcur
      subst ha0
      have haH : aH < h.length := readNode_lt hr
      have hbd : ∀ b ∈ rest, b < h.length := chainSeg_bounded hchr
      have hnotin : aH ∉ rest := (List.nodup_cons.mp hnd).1
      have htn : d.tail ≠ none := by
        rw [htl, lastPtr_cons]
        exact lastPtr_some_ne_none aH rest
      have hr4 : readNode (h ++ [some (node_t.mk x none (some aH))]) aH = some ndH := by
        rw [readNode_append_lt haH]; exact hr
      refine ⟨(h ++ [some (node_t.mk x none (some aH))]).set aH
                (some { ndH with prev := some h.length }),
              ⟨some h.length, d.tail, d.size + 1⟩, ?_, ?_, ?_, ?_⟩
      · simp [deque_t.PushFront, mallocNode, writeFresh, hhd,
              derefWrite_some hr4, htn]
      · have read5_fresh :
            readNode ((h ++ [some (node_t.mk x none (some aH))]).set aH
              (some { ndH with prev := some h.length })) h.length =
            some (node_t.mk x none (some aH)) := by
          rw [readNode_set_ne (Nat.ne_of_lt haH), readNode_append_self]
        have read5_aH :
            readNode ((h ++ [some (node_t.mk x none (some aH))]).set aH
              (some { ndH with prev := some h.length })) aH =
            some { ndH with prev := some h.length } := by
          rw [readNode_set_self]
          simpa using Nat.lt_succ_of_lt haH
        have read5_rest : ∀ b ∈ rest,
            readNode ((h ++ [some (node_t.mk x none (some aH))]).set aH
              (some { ndH with prev := some h.length })) b = readNode h b := by
          intro b hb
          have hne : aH ≠ b := by
            intro he
            subst he
            exact hnotin hb
          rw [readNode_set_ne hne, readNode_append_lt (hbd b hb)]
        refine ⟨?_, ?_, ?_, ?_, ?_⟩
        · refine chainSeg_cons_intro rfl read5_fresh rfl ?_
          refine chainSeg_cons_intro rfl read5_aH rfl ?_
          exact chainSeg_stable read5_rest hchr
        · rw [htl]
          rw [show lastPtr none (h.length :: aH :: rest) =
                lastPtr (some h.length) (aH :: rest) from
                lastPtr_cons none h.length (aH :: rest)]
          exact lastPtr_nonempty (by simp) none (some h.length)
        · simpa using hsz
        · simp only [List.nodup_cons]
          constructor
          · intro hmem
            rcases List.mem_cons.mp hmem with he | hmem2
            · exact absurd he.symm (Nat.ne_of_lt haH)
            · exact absurd (hbd _ hmem2) (lt_irrefl _)
          · exact ⟨hnotin, (List.nodup_cons.mp hnd).2⟩
        · refine valsMatch_cons_iff.mpr
            ⟨x, L, node_t.mk x none (some aH), rfl, read5_fresh, rfl, ?_⟩
          refine valsMatch_stable ?_ hvm
          intro b hb
          rcases List.mem_cons.mp hb with rfl | hb2
          · simp [read5_aH, hr]
          · rw [read5_rest b hb2]
      · simp
      · intro b hb hbni
        have hne : aH ≠ b := by
          intro he
          subst he
          exact hbni (List.mem_cons_self aH rest)
        rw [readNode_set_ne hne, readNode_append_lt hb]

theorem pushBack_spec {h : Heap} {d : deque_t} {A : List Nat} {L : List Int}
    (x : Int) (hg : GoodState h d A L) :
    ∃ h5 d2, deque_t.PushBack true h d x = .ok (h5, d2) ∧
      GoodState h5 d2 (A ++ [h.length]) (L ++ [x]) ∧
      h5.length = h.length + 1 ∧
      (∀ b, b < h.length → b ∉ A → readNode h5 b = readNode h b) := by
  obtain ⟨hch, htl, hsz, hnd, hvm⟩ := hg
  cases htt : d.tail with
  | none =>
    have hA : A = [] := by
      rw [htt] at htl
      exact lastPtr_none_iff.mp htl.symm
    subst hA
    have hL : L = [] := valsMatch_nil_iff.mp hvm
    subst hL
    have hhd : d.head = none := (chain_head_none_iff hch).mpr rfl
    refine ⟨h ++ [some (node_t.mk x none none)],
      ⟨some h.length, some h.length, d.size + 1⟩, ?_, ?_, by simp, ?_⟩
    · simp [deque_t.PushBack, mallocNode, writeFresh, hhd, htt]
    · refine ⟨?_, by simp [lastPtr], by simpa using hsz, by simp, ?_⟩
      · simp [chainSeg, readNode_append_self]
      · simp [valsMatch, readNode_append_self]
    · intro b hb _
      exact readNode_append_lt hb
  | some t =>
    have hgl : A.getLast? = some t := by
      rw [htt] at htl
      cases hA : A.getLast? with
      | none =>
        rw [show lastPtr none A = none from by simp [lastPtr, hA]] at htl
        exact absurd htl (by simp)
      | some u =>
        rw [show lastPtr none A = some u from by simp [lastPtr, hA]] at htl
        have htu : t = u := by simpa using htl
        subst htu
        rfl
    obtain ⟨D, rfl⟩ : ∃ D, A = D ++ [t] := by
      refine ⟨A.dropLast, ?_⟩
      exact (List.dropLast_append_getLast? t hgl).symm
    obtain ⟨ndT, hchD, hrT, hprevT, hnextT⟩ := chainSeg_snoc.mp hch
    have hT : t < h.length := readNode_lt hrT
    have hbdD : ∀ b ∈ D, b < h.length := chainSeg_bounded hchD
    have hnotinD : t ∉ D := by
      have hx := hnd
      simp only [List.nodup_append] at hx
      intro hmem
      exact hx.2.2 hmem (by simp)
    have hhd : d.head ≠ none := by
      intro he
      have := (chain_head_none_iff hch).mp he
      simp at this
    have hr4 : readNode (h ++ [some (node_t.mk x (some t) none)]) t = some ndT := by
      rw [readNode_append_lt hT]; exact hrT
    refine ⟨(h ++ [some (node_t.mk x (some t) none)]).set t
              (some { ndT with next := some h.length }),
            ⟨d.head, some h.length, d.size + 1⟩, ?_, ?_, ?_, ?_⟩
    · simp [deque_t.PushBack, mallocNode, writeFresh, htt,
            derefWrite_some hr4, hhd]
    · have read5_fresh :
          readNode ((h ++ [some (node_t.mk x (some t) none)]).set t
            (some { ndT with next := some h.length })) h.length =
          some (node_t.mk x (some t) none) := by
        rw [readNode_set_ne (Nat.ne_of_lt hT), readNode_append_self]
      have read5_t :
          readNode ((h ++ [some (node_t.mk x (some t) none)]).set t
            (some { ndT with next := some h.length })) t =
          some { ndT with next := some h.length } := by
        rw [readNode_set_self]
        simpa using Nat.lt_succ_of_lt hT
      have read5_D : ∀ b ∈ D,
          readNode ((h ++ [some (node_t.mk x (some t) none)]).set t
            (some { ndT with next := some h.length })) b = readNode h b := by
        intro b hb
        have hne : t ≠ b := by
          intro he
          subst he
          exact hnotinD hb
        rw [readNode_set_ne hne, readNode_append_lt (hbdD b hb)]
      refine ⟨?_, ?_, ?_, ?_, ?_⟩
      · refine chainSeg_snoc.mpr ⟨node_t.mk x (some t) none, ?_, read5_fresh, ?_, rfl⟩
        · refine chainSeg_snoc.mpr ⟨{ ndT with next := some h.length }, ?_, read5_t, ?_, rfl⟩
          · exact chainSeg_stable read5_D hchD
          · simpa using hprevT
        · simp [lastPtr, List.getLast?_concat]
      · simp [lastPtr, List.getLast?_concat]
      · simpa using hsz
      · have hlen_notin : h.length ∉ D ++ [t] := by
          intro hmem
          rcases List.mem_append.mp hmem with hmem2 | hmem2
          · exact absurd (hbdD _ hmem2) (by omega)
          · have : h.length = t := by simpa using hmem2
            exact absurd hT (by omega)
        refine List.Nodup.append hnd (by simp) ?_
        intro a ha hb
        have : a = h.length := by simpa using hb
        subst this
        exact hlen_notin ha
      · refine valsMatch_snoc.mpr ⟨?_, node_t.mk x (some t) none, read5_fresh, rfl⟩
        refine valsMatch_stable ?_ hvm
        intro b hb
        rcases List.mem_append.mp hb with hb2 | hb2
        · rw [read5_D b hb2]
        · have : b = t := by simpa using hb2
          subst this
          simp [read5_t, hrT]
    · simp
    · intro b hb hbni
      have hne : t ≠ b := by
        intro he
        subst he
        exact hbni (by simp)
      rw [readNode_set_ne hne, readNode_append_lt hb]

theorem popFront_spec {h : Heap} {d : deque_t} {a : Nat} {rest : List Nat}
    {v : Int} {vs : List Int} (hg : GoodState h d (a :: rest) (v :: vs)) :
    ∃ h2 d2, deque_t.PopFront h d = .ok (h2, d2) ∧
      GoodState h2 d2 rest vs ∧
      h2.length = h.length ∧
      (∀ b, b ∉ a :: rest → readNode h2 b = readNode h b) := by
  obtain ⟨hch, htl, hsz, hnd, hvm⟩ := hg
  obtain ⟨hcur, ndA, hrA, hprevA, hchr⟩ := chainSeg_cons_elim hch
  obtain ⟨v2, vs2, ndA2, hLeq, hrA2, hvalA, hvmr⟩ := valsMatch_cons_iff.mp hvm
  injection hLeq with hv1 hv2
  subst hv1
  subst hv2
  rw [hrA] at hrA2
  obtain rfl : ndA = ndA2 := by simpa using hrA2
  have hnotin : a ∉ rest := (List.nodup_cons.mp hnd).1
  have hbd : ∀ b ∈ rest, b < h.length := chainSeg_bounded hchr
  cases rest with
  | nil =>
    have hnext : ndA.next = none := chainSeg_nil.mp hchr
    refine ⟨freeNode h (some a), ⟨none, none, d.size - 1⟩, ?_, ?_, ?_, ?_⟩
    · simp [deque_t.PopFront, hcur, hrA, hnext]
    · have hvs : vs = [] := valsMatch_nil_iff.mp hvmr
      subst hvs
      exact ⟨by simp [chainSeg], by simp [lastPtr], by simp [hsz], by simp,
             by simp [valsMatch]⟩
    · simp [length_freeNode]
    · intro b hb
      have hne : a ≠ b := fun he => hb (by simp [he])
      exact readNode_freeNode_ne hne
  | cons b rest2 =>
    obtain ⟨hnx, ndB, hrB, hprevB, hchr2⟩ := chainSeg_cons_elim hchr
    have hab : a ≠ b := by
      intro he
      exact hnotin (he ▸ List.mem_cons_self b rest2)
    have hbl : b < h.length := readNode_lt hrB
    have hrB1 : readNode (freeNode h (some a)) b = some ndB := by
      rw [readNode_freeNode_ne hab]; exact hrB
    have hbd2 : ∀ c ∈ rest2, c < h.length := chainSeg_bounded hchr2
    have hbnotin : b ∉ rest2 := by
      have hx := hnd
      simp only [List.nodup_cons] at hx
      exact hx.2.1
    refine ⟨(freeNode h (some a)).set b (some { ndB with prev := none }),
            ⟨some b, d.tail, d.size - 1⟩, ?_, ?_, ?_, ?_⟩
    · simp [deque_t.PopFront, hcur, hrA, hnx, derefWrite_some hrB1]
    · have read2_b :
          readNode ((freeNode h (some a)).set b (some { ndB with prev := none })) b =
          some { ndB with prev := none } := by
        rw [readNode_set_self]
        simpa [length_freeNode] using hbl
      have read2_rest2 : ∀ c ∈ rest2,
          readNode ((freeNode h (some a)).set b (some { ndB with prev := none })) c =
          readNode h c := by
        intro c hc
        have hbc : b ≠ c := fun he => hbnotin (he ▸ hc)
        have hac : a ≠ c := by
          intro he
          exact hnotin (he ▸ List.mem_cons.mpr (Or.inr hc))
        rw [readNode_set_ne hbc, readNode_freeNode_ne hac]
      refine ⟨?_, ?_, ?_, ?_, ?_⟩
      · refine chainSeg_cons_intro rfl read2_b rfl ?_
        exact chainSeg_stable read2_rest2 hchr2
      · rw [htl, show lastPtr none (a :: b :: rest2) = lastPtr (some a) (b :: rest2) from
              lastPtr_cons none a (b :: rest2)]
        exact lastPtr_nonempty (by simp) (some a) none
      · rw [hsz]
        simp
      · exact (List.nodup_cons.mp hnd).2
      · refine valsMatch_stable ?_ hvmr
        intro c hc
        rcases List.mem_cons.mp hc with rfl | hc2
        · simp [read2_b, hrB]
        · rw [read2_rest2 c hc2]
    · simp [length_freeNode]
    · intro c hc
      have hbc : b ≠ c := fun he => hc (by simp [he])
      have hac : a ≠ c := fun he => hc (by simp [he])
      rw [readNode_set_ne hbc, readNode_freeNode_ne hac]

theorem popFront_empty {h : Heap} {d : deque_t} {L : List Int}
    (hg : GoodState h d [] L) :
    deque_t.PopFront h d = .error .emptyContainer := by
  obtain ⟨hch, _, _, _, _⟩ := hg
  have hhd : d.head = none := chainSeg_nil.mp hch
  simp [deque_t.PopFront, hhd]

theorem popBack_spec {h : Heap} {d : deque_t} {D : List Nat} {t : Nat}
    {M : List Int} {v : Int} (hg : GoodState h d (D ++ [t]) (M ++ [v])) :
    ∃ h2 d2, deque_t.PopBack h d = .ok (h2, d2) ∧
      GoodState h2 d2 D M ∧
      h2.length = h.length ∧
      (∀ b, b ∉ D ++ [t] → readNode h2 b = readNode h b) := by
  obtain ⟨hch, htl, hsz, hnd, hvm⟩ := hg
  obtain ⟨ndT, hchD, hrT, hprevT, hnextT⟩ := chainSeg_snoc.mp hch
  obtain ⟨hvmD, ndT2, hrT2, hvalT⟩ := valsMatch_snoc.mp hvm
  rw [hrT] at hrT2
  obtain rfl : ndT = ndT2 := by simpa using hrT2
  have htt : d.tail = some t := by
    rw [htl]
    simp [lastPtr, List.getLast?_concat]
  have hT : t < h.length := readNode_lt hrT
  have hbdD : ∀ b ∈ D, b < h.length := chainSeg_bounded hchD
  have hnotinD : t ∉ D := by
    have hx := hnd
    simp only [List.nodup_append] at hx
    intro hmem
    exact hx.2.2 hmem (by simp)
  cases hD : D.getLast? with
  | none =>
    have hDnil : D = [] := List.getLast?_eq_none_iff.mp hD
    subst hDnil
    have hMnil : M = [] := valsMatch_nil_iff.mp hvmD
    subst hMnil
    have hprevN : ndT.prev = none := by simpa [lastPtr] using hprevT
    refine ⟨freeNode h (some t), ⟨none, none, d.size - 1⟩, ?_, ?_, ?_, ?_⟩
    · simp [deque_t.PopBack, htt, hrT, hprevN]
    · exact ⟨by simp [chainSeg, chainSeg_nil.mp hchD], by simp [lastPtr],
             by simp [hsz], by simp, by simp [valsMatch]⟩
    · simp [length_freeNode]
    · intro b hb
      have hne : t ≠ b := fun he => hb (by simp [he])
      exact readNode_freeNode_ne hne
  | some b =>
    have hDne : D ≠ [] := by
      intro he
      rw [he] at hD
      simp at hD
    have hprevB : ndT.prev = some b := by
      rw [hprevT]
      simp [lastPtr, hD]
    obtain ⟨D2, rfl⟩ : ∃ D2, D = D2 ++ [b] := by
      refine ⟨D.dropLast, ?_⟩
      exact (List.dropLast_append_getLast? b hD).symm
    obtain ⟨ndB, hchD2, hrB, hprevB2, hnextB⟩ := chainSeg_snoc.mp hchD
    have hbt : t ≠ b := by
      intro he
      exact hnotinD (he ▸ (by simp : b ∈ D2 ++ [b]))
    have hbl : b < h.length := readNode_lt hrB
    have hrB1 : readNode (freeNode h (some t)) b = some ndB := by
      rw [readNode_freeNode_ne hbt]; exact hrB
    have hbd2 : ∀ c ∈ D2, c < h.length := chainSeg_bounded hchD2
    have hbnotin : b ∉ D2 := by
      have hx := hnd
      simp only [List.append_assoc, List.nodup_append] at hx
      intro hmem
      exact hx.2.2 hmem (by simp)
    refine ⟨(freeNode h (some t)).set b (some { ndB with next := none }),
            ⟨d.head, some b, d.size - 1⟩, ?_, ?_, ?_, ?_⟩
    · simp [deque_t.PopBack, htt, hrT, hprevB, derefWrite_some hrB1]
    · have read2_b :
          readNode ((freeNode h (some t)).set b (some { ndB with next := none })) b =
          some { ndB with next := none } := by
        rw [readNode_set_self]
        simpa [length_freeNode] using hbl
      have read2_D2 : ∀ c ∈ D2,
          readNode ((freeNode h (some t)).set b (some { ndB with next := none })) c =
          readNode h c := by
        intro c hc
        have hbc : b ≠ c := fun he => hbnotin (he ▸ hc)
        have htc : t ≠ c := by
          intro he
          exact hnotinD (he ▸ List.mem_append.mpr (Or.inl hc))
        rw [readNode_set_ne hbc, readNode_freeNode_ne htc]
      refine ⟨?_, ?_, ?_, ?_, ?_⟩
      · refine chainSeg_snoc.mpr ⟨{ ndB with next := none }, ?_, read2_b, ?_, rfl⟩
        · exact chainSeg_stable read2_D2 hchD2
        · simpa using hprevB2
      · simp [lastPtr, hD]
      · rw [hsz]
        simp
      · have hx := hnd
        simp only [List.append_assoc, List.nodup_append] at hx
        refine List.Nodup.append hx.1 (by simp) ?_
        intro c hc hcb
        have : c = b := by simpa using hcb
        subst this
        exact hbnotin hc
      · refine valsMatch_stable ?_ hvmD
        intro c hc
        rcases List.mem_append.mp hc with hc2 | hc2
        · rw [read2_D2 c hc2]
        · have hcb : c = b := by simpa using hc2
          subst hcb
          simp [read2_b, hrB]
    · simp [length_freeNode]
    · intro c hc
      have hbc : b ≠ c := fun he => hc (by simp [he])
      have htc : t ≠ c := fun he => hc (by simp [he])
      rw [readNode_set_ne hbc, readNode_freeNode_ne htc]

theorem popBack_empty {h : Heap} {d : deque_t} {L : List Int}
    (hg : GoodState h d [] L) :
    deque_t.PopBack h d = .error .emptyContainer := by
  obtain ⟨_, htl, _, _, _⟩ := hg
  have htt : d.tail = none := by simpa [lastPtr] using htl
  simp [deque_t.PopBack, htt]

theorem valsMatch_append {h : Heap} :
    ∀ {A B : List Nat} {L M : List Int},
    valsMatch h A L = true → valsMatch h B M = true →
    valsMatch h (A ++ B) (L ++ M) = true := by
  intro A
  induction A with
  | nil =>
    intro B L M hL hM
    rw [valsMatch_nil_iff.mp hL]
    simpa using hM
  | cons a rest ih =>
    intro B L M hL hM
    obtain ⟨v, vs, nd, rfl, hr, hval, hrest⟩ := valsMatch_cons_iff.mp hL
    simp only [List.cons_append]
    exact valsMatch_cons_iff.mpr ⟨v, vs ++ M, nd, rfl, hr, hval, ih hrest hM⟩

theorem getFront_empty {h : Heap} {d : deque_t} {L : List Int}
    (hg : GoodState h d [] L) :
    deque_t.GetFront h d = .error .emptyContainer := by
  obtain ⟨hch, _, _, _, _⟩ := hg
  have hhd : d.head = none := chainSeg_nil.mp hch
  simp [deque_t.GetFront, hhd]

theorem getBack_empty {h : Heap} {d : deque_t} {L : List Int}
    (hg : GoodState h d [] L) :
    deque_t.GetBack h d = .error .emptyContainer := by
  obtain ⟨_, htl, _, _, _⟩ := hg
  have htt : d.tail = none := by simpa [lastPtr] using htl
  simp [deque_t.GetBack, htt]

theorem lastPtr_append {A B : List Nat} (hB : B ≠ []) (pv : Option Nat) :
    lastPtr pv (A ++ B) = lastPtr pv B := by
  have hs : B.getLast?.isSome := by
    cases B with
    | nil => exact absurd rfl hB
    | cons x xs => simp [List.getLast?_isSome]
  obtain ⟨z, hz⟩ := Option.isSome_iff_exists.mp hs
  simp [lastPtr, List.getLast?_append, hz]

theorem addOtherMove_spec {h : Heap} {d other : deque_t} {A B : List Nat}
    {L M : List Int} (hg1 : GoodState h d A L) (hg2 : GoodState h other B M)
    (hdisj : ∀ a ∈ A, a ∉ B) :
    ∃ h2 d2 o2, deque_t.AddOtherDequeMove h d other = .ok (h2, d2, o2) ∧
      GoodState h2 d2 (A ++ B) (L ++ M) ∧
      o2 = emptyDeque ∧
      d2.size = d.size + other.size ∧
      h2.length = h.length ∧
      (∀ b, b ∉ A ++ B → readNode h2 b = readNode h b) := by
  obtain ⟨hch, htl, hsz, hnd, hvm⟩ := hg1
  obtain ⟨hch2, htl2, hsz2, hnd2, hvm2⟩ := hg2
  cases htt : d.tail with
  | none =>
    have hA : A = [] := by
      rw [htt] at htl
      exact lastPtr_none_iff.mp htl.symm
    subst hA
    have hL : L = [] := valsMatch_nil_iff.mp hvm
    subst hL
    refine ⟨h, ⟨other.head, other.tail, other.size⟩, ⟨none, none, 0⟩, ?_, ?_, rfl,
      by simp [hsz], rfl, by intro b _; rfl⟩
    · simp [deque_t.AddOtherDequeMove, htt]
    · exact ⟨hch2, htl2, hsz2, hnd2, by simpa using hvm2⟩
  | some t =>
    cases hoh : other.head with
    | none =>
      have hB : B = [] := (chain_head_none_iff hch2).mp hoh
      subst hB
      have hM : M = [] := valsMatch_nil_iff.mp hvm2
      subst hM
      have hoeq : other = emptyDeque := by
        have h1 : other.tail = none := by simpa [lastPtr] using htl2
        have h2 : other.size = 0 := by simpa using hsz2
        cases other
        simp_all [emptyDeque]
      refine ⟨h, d, other, ?_, ?_, hoeq, by simpa using hsz2.symm ▸ rfl, rfl,
        by intro b _; rfl⟩
      · simp [deque_t.AddOtherDequeMove, htt, hoh]
      · exact ⟨by simpa using hch, by simpa using htl, by simpa using hsz,
               by simpa using hnd, by simpa using hvm⟩
    | some oh =>
      -- decompose A as D ++ [t]
      have hgl : A.getLast? = some t := by
        rw [htt] at htl
        cases hA2 : A.getLast? with
        | none =>
          rw [show lastPtr none A = none from by simp [lastPtr, hA2]] at htl
          exact absurd htl (by simp)
        | some u =>
          rw [show lastPtr none A = some u from by simp [lastPtr, hA2]] at htl
          have htu : t = u := by simpa using htl
          subst htu
          rfl
      obtain ⟨D, rfl⟩ : ∃ D, A = D ++ [t] := by
        refine ⟨A.dropLast, ?_⟩
        exact (List.dropLast_append_getLast? t hgl).symm
      obtain ⟨ndT, hchD, hrT, hprevT, hnextT⟩ := chainSeg_snoc.mp hch
      -- decompose B as oh :: Brest
      cases hBc : B with
      | nil =>
        rw [hBc] at hch2
        rw [chainSeg_nil.mp hch2] at hoh
        simp at hoh
      | cons b0 Brest =>
        subst hBc
        obtain ⟨hcur2, ndOH, hrOH, hprevOH, hchB⟩ := chainSeg_cons_elim hch2
        rw [hoh] at hcur2
        have hb0 : oh = b0 := by simpa using hcur2
        subst hb0
        have hT : t < h.length := readNode_lt hrT
        have hOH : oh < h.length := readNode_lt hrOH
        have htmem : t ∈ D ++ [t] := by simp
        have htoh : t ≠ oh := by
          intro he
          exact hdisj t htmem (he ▸ List.mem_cons_self oh Brest)
        have hbdD : ∀ c ∈ D, c < h.length := chainSeg_bounded hchD
        have hbdB : ∀ c ∈ Brest, c < h.length := chainSeg_bounded hchB
        have hnotinD : t ∉ D := by
          have hx := hnd
          simp only [List.nodup_append] at hx
          intro hmem
          exact hx.2.2 hmem (by simp)
        have hohB : oh ∉ Brest := (List.nodup_cons.mp hnd2).1
        have hrT1 : readNode (h.set t (some { ndT with next := some oh })) t =
            some { ndT with next := some oh } := readNode_set_self hT _
        have hrOH1 : readNode (h.set t (some { ndT with next := some oh })) oh =
            some ndOH := by
          rw [readNode_set_ne htoh]; exact hrOH
        refine ⟨(h.set t (some { ndT with next := some oh })).set oh
                  (some { ndOH with prev := some t }),
                ⟨d.head, other.tail, d.size + other.size⟩,
                ⟨none, none, 0⟩, ?_, ?_, rfl, rfl, ?_, ?_⟩
        · simp [deque_t.AddOtherDequeMove, htt, hoh, derefWrite_some hrT,
                derefWrite_some hrOH1]
        · have read2_t :
              readNode ((h.set t (some { ndT with next := some oh })).set oh
                (some { ndOH with prev := some t })) t =
              some { ndT with next := some oh } := by
            rw [readNode_set_ne (Ne.symm htoh)]
            exact hrT1
          have read2_oh :
              readNode ((h.set t (some { ndT with next := some oh })).set oh
                (some { ndOH with prev := some t })) oh =
              some { ndOH with prev := some t } := by
            rw [readNode_set_self]
            simpa using hOH
          have read2_D : ∀ c ∈ D,
              readNode ((h.set t (some { ndT with next := some oh })).set oh
                (some { ndOH with prev := some t })) c = readNode h c := by
            intro c hc
            have hct : t ≠ c := fun he => hnotinD (he ▸ hc)
            have hcoh : oh ≠ c := by
              intro he
              exact hdisj c (List.mem_append.mpr (Or.inl hc))
                (he ▸ List.mem_cons_self oh Brest)
            rw [readNode_set_ne hcoh, readNode_set_ne hct]
          have read2_B : ∀ c ∈ Brest,
              readNode ((h.set t (some { ndT with next := some oh })).set oh
                (some { ndOH with prev := some t })) c = readNode h c := by
            intro c hc
            have hcoh : oh ≠ c := fun he => hohB (he ▸ hc)
            have hct : t ≠ c := by
              intro he
              subst he
              exact hdisj t htmem (List.mem_cons.mpr (Or.inr hc))
            rw [readNode_set_ne hcoh, readNode_set_ne hct]
          refine ⟨?_, ?_, ?_, ?_, ?_⟩
          · have pf1 : chainSeg ((h.set t (some { ndT with next := some oh })).set oh
                (some { ndOH with prev := some t })) none d.head (D ++ [t])
                (some oh) = true := by
              refine chainSeg_snoc.mpr ⟨{ ndT with next := some oh }, ?_, read2_t, ?_, rfl⟩
              · exact chainSeg_stable read2_D hchD
              · simpa using hprevT
            have pf2 : chainSeg ((h.set t (some { ndT with next := some oh })).set oh
                (some { ndOH with prev := some t })) (lastPtr none (D ++ [t]))
                (some oh) (oh :: Brest) none = true := by
              rw [show lastPtr none (D ++ [t]) = some t from by
                    simp [lastPtr, List.getLast?_concat]]
              refine chainSeg_cons_intro rfl read2_oh rfl ?_
              exact chainSeg_stable read2_B hchB
            exact chainSeg_append pf1 pf2
          · rw [htl2, lastPtr_append (by simp) none]
          · rw [hsz, hsz2]
            simp only [List.length_append, List.length_cons]
          · refine List.Nodup.append hnd hnd2 ?_
            intro c hc1 hc2
            exact hdisj c hc1 hc2
          · refine valsMatch_append ?_ ?_
            · refine valsMatch_stable ?_ hvm
              intro c hc
              rcases List.mem_append.mp hc with hc2 | hc2
              · rw [read2_D c hc2]
              · have : c = t := by simpa using hc2
                subst this
                simp [read2_t, hrT]
            · refine valsMatch_stable ?_ hvm2
              intro c hc
              rcases List.mem_cons.mp hc with rfl | hc2
              · simp [read2_oh, hrOH]
              · rw [read2_B c hc2]
        · simp
        · intro c hc
          have hct : t ≠ c := fun he => hc (by simp [he])
          have hcoh : oh ≠ c := fun he => hc (by simp [he])
          rw [readNode_set_ne hcoh, readNode_set_ne hct]

theorem goodState_init : GoodState [] emptyDeque [] [] := by
  refine ⟨by simp [chainSeg, emptyDeque], by simp [lastPtr, emptyDeque],
    by simp [emptyDeque], by simp, by simp [valsMatch]⟩

theorem reach_good {h : Heap} {d : deque_t} (hr : Reach h d) :
    ∃ A L, GoodState h d A L := by
  induction hr with
  | init => exact ⟨[], [], goodState_init⟩
  | pushF _ heq ih =>
    obtain ⟨A, L, hg⟩ := ih
    obtain ⟨h5, d5, heq2, hg2, _, _⟩ := pushFront_spec _ hg
    rw [heq] at heq2
    simp only [Except.ok.injEq, Prod.mk.injEq] at heq2
    obtain ⟨rfl, rfl⟩ := heq2
    exact ⟨_, _, hg2⟩
  | pushB _ heq ih =>
    obtain ⟨A, L, hg⟩ := ih
    obtain ⟨h5, d5, heq2, hg2, _, _⟩ := pushBack_spec _ hg
    rw [heq] at heq2
    simp only [Except.ok.injEq, Prod.mk.injEq] at heq2
    obtain ⟨rfl, rfl⟩ := heq2
    exact ⟨_, _, hg2⟩
  | popF _ heq ih =>
    obtain ⟨A, L, hg⟩ := ih
    cases A with
    | nil =>
      rw [popFront_empty hg] at heq
      exact absurd heq (by simp)
    | cons a rest =>
      cases L with
      | nil =>
        have := valsMatch_length hg.2.2.2.2
        simp at this
      | cons v vs =>
        obtain ⟨h5, d5, heq2, hg2, _, _⟩ := popFront_spec hg
        rw [heq] at heq2
        simp only [Except.ok.injEq, Prod.mk.injEq] at heq2
        obtain ⟨rfl, rfl⟩ := heq2
        exact ⟨_, _, hg2⟩
  | popB _ heq ih =>
    obtain ⟨A, L, hg⟩ := ih
    cases hA : A.getLast? with
    | none =>
      have hAnil : A = [] := List.getLast?_eq_none_iff.mp hA
      subst hAnil
      rw [popBack_empty hg] at heq
      exact absurd heq (by simp)
    | some t =>
      have hAne : A ≠ [] := by
        intro he
        rw [he] at hA
        simp at hA
      obtain ⟨D, rfl⟩ : ∃ D, A = D ++ [t] := by
        refine ⟨A.dropLast, ?_⟩
        exact (List.dropLast_append_getLast? t hA).symm
      have hLne : L ≠ [] := by
        intro he
        have := valsMatch_length hg.2.2.2.2
        rw [he] at this
        simp at this
      obtain ⟨M, w, rfl⟩ : ∃ M w, L = M ++ [w] := by
        refine ⟨L.dropLast, L.getLast hLne, ?_⟩
        exact (List.dropLast_append_getLast hLne).symm
      obtain ⟨h5, d5, heq2, hg2, _, _⟩ := popBack_spec hg
      rw [heq] at heq2
      simp only [Except.ok.injEq, Prod.mk.injEq] at heq2
      obtain ⟨rfl, rfl⟩ := heq2
      exact ⟨_, _, hg2⟩

/-! Refinement of operation sequences to list-level semantics. -/

theorem runFrom_ref : ∀ {ops : List Op} {h : Heap} {d : deque_t} {A : List Nat}
    {L L2 : List Int}, GoodState h d A L → specRun L ops = some L2 →
    ∃ h2 d2 A2, runFrom ops h d = .ok (h2, d2) ∧ GoodState h2 d2 A2 L2 := by
  intro ops
  induction ops with
  | nil =>
    intro h d A L L2 hg hs
    simp only [specRun, Option.some.injEq] at hs
    subst hs
    exact ⟨h, d, A, rfl, hg⟩
  | cons o os ih =>
    intro h d A L L2 hg hs
    cases o with
    | pushFront x =>
      simp only [specRun, specStep] at hs
      obtain ⟨h5, d5, heq, hg2, _, _⟩ := pushFront_spec x hg
      simp only [runFrom, opStep, heq]
      exact ih hg2 hs
    | pushBack x =>
      simp only [specRun, specStep] at hs
      obtain ⟨h5, d5, heq, hg2, _, _⟩ := pushBack_spec x hg
      simp only [runFrom, opStep, heq]
      exact ih hg2 hs
    | popFront =>
      cases L with
      | nil => simp [specRun, specStep] at hs
      | cons v vs =>
        simp only [specRun, specStep] at hs
        cases A with
        | nil =>
          have := valsMatch_length hg.2.2.2.2
          simp at this
        | cons a rest =>
          obtain ⟨h5, d5, heq, hg2, _, _⟩ := popFront_spec hg
          simp only [runFrom, opStep, heq]
          exact ih hg2 hs
    | popBack =>
      cases hL : L with
      | nil => subst hL; simp [specRun, specStep] at hs
      | cons v vs =>
        subst hL
        simp only [specRun, specStep] at hs
        have hLne : (v :: vs) ≠ ([] : List Int) := by simp
        have hAne : A ≠ [] := by
          intro he
          have := valsMatch_length hg.2.2.2.2
          rw [he] at this
          simp at this
        cases hA : A.getLast? with
        | none => exact absurd (List.getLast?_eq_none_iff.mp hA) hAne
        | some t =>
          obtain ⟨D, rfl⟩ : ∃ D, A = D ++ [t] := by
            refine ⟨A.dropLast, ?_⟩
            exact (List.dropLast_append_getLast? t hA).symm
          obtain ⟨M, w, hLM⟩ : ∃ M w, v :: vs = M ++ [w] := by
            refine ⟨(v :: vs).dropLast, (v :: vs).getLast hLne, ?_⟩
            exact (List.dropLast_append_getLast hLne).symm
          rw [hLM] at hg
          obtain ⟨h5, d5, heq, hg2, _, _⟩ := popBack_spec hg
          simp only [runFrom, opStep, heq]
          refine ih hg2 ?_
          rw [show (v :: vs).dropLast = M from by rw [hLM]; simp] at hs
          exact hs

theorem specRun_count : ∀ {ops : List Op} {L L2 : List Int},
    specRun L ops = some L2 →
    L2.length + cntPop ops = L.length + cntPush ops := by
  intro ops
  induction ops with
  | nil =>
    intro L L2 hs
    simp only [specRun, Option.some.injEq] at hs
    subst hs
    simp [cntPop, cntPush]
  | cons o os ih =>
    intro L L2 hs
    cases o with
    | pushFront x =>
      simp only [specRun, specStep] at hs
      have := ih hs
      simp only [cntPop, cntPush]
      simp at this
      omega
    | pushBack x =>
      simp only [specRun, specStep] at hs
      have := ih hs
      simp only [cntPop, cntPush]
      simp at this
      omega
    | popFront =>
      cases L with
      | nil => simp [specRun, specStep] at hs
      | cons v vs =>
        simp only [specRun, specStep] at hs
        have := ih hs
        simp only [cntPop, cntPush]
        have hlen : (v :: vs).length = vs.length + 1 := by simp
        omega
    | popBack =>
      cases L with
      | nil => simp [specRun, specStep] at hs
      | cons v vs =>
        simp only [specRun, specStep] at hs
        have := ih hs
        simp only [cntPop, cntPush]
        have hlen : (v :: vs).dropLast.length = vs.length := by simp
        have hlen2 : (v :: vs).length = vs.length + 1 := by simp
        omega

/-! Separation: operations on one deque do not disturb a disjoint deque. -/

theorem goodState_stable {h h2 : Heap} {d : deque_t} {A : List Nat} {L : List Int}
    (hst : ∀ a ∈ A, readNode h2 a = readNode h a) (hg : GoodState h d A L) :
    GoodState h2 d A L := by
  obtain ⟨hch, htl, hsz, hnd, hvm⟩ := hg
  exact ⟨chainSeg_stable hst hch, htl, hsz, hnd,
    valsMatch_stable (fun a ha => by rw [hst a ha]) hvm⟩

theorem sep_opStep {o : Op} {h : Heap} {d1 d2 : deque_t} {A1 A2 : List Nat}
    {L1 L2 : List Int} {h2 : Heap} {d2x : deque_t}
    (hg1 : GoodState h d1 A1 L1) (hg2 : GoodState h d2 A2 L2)
    (hdisj : ∀ a ∈ A1, a ∉ A2)
    (heq : opStep o h d2 = .ok (h2, d2x)) :
    ∃ A2x L2x, GoodState h2 d2x A2x L2x ∧ GoodState h2 d1 A1 L1 ∧
      (∀ a ∈ A1, a ∉ A2x) := by
  have hb1 : ∀ a ∈ A1, a < h.length := chainSeg_bounded hg1.1
  cases o with
  | pushFront x =>
    obtain ⟨h5, d5, heq2, hg2x, hlen, hframe⟩ := pushFront_spec x hg2
    simp only [opStep] at heq
    rw [heq2] at heq
    simp only [Except.ok.injEq, Prod.mk.injEq] at heq
    obtain ⟨rfl, rfl⟩ := heq
    refine ⟨h.length :: A2, x :: L2, hg2x, ?_, ?_⟩
    · exact goodState_stable
        (fun a ha => hframe a (hb1 a ha) (hdisj a ha)) hg1
    · intro a ha
      simp only [List.mem_cons]
      rintro (rfl | hmem)
      · exact absurd (hb1 _ ha) (lt_irrefl _)
      · exact hdisj a ha hmem
  | pushBack x =>
    obtain ⟨h5, d5, heq2, hg2x, hlen, hframe⟩ := pushBack_spec x hg2
    simp only [opStep] at heq
    rw [heq2] at heq
    simp only [Except.ok.injEq, Prod.mk.injEq] at heq
    obtain ⟨rfl, rfl⟩ := heq
    refine ⟨A2 ++ [h.length], L2 ++ [x], hg2x, ?_, ?_⟩
    · exact goodState_stable
        (fun a ha => hframe a (hb1 a ha) (hdisj a ha)) hg1
    · intro a ha
      simp only [List.mem_append, List.mem_singleton]
      rintro (hmem | rfl)
      · exact hdisj a ha hmem
      · exact absurd (hb1 _ ha) (lt_irrefl _)
  | popFront =>
    cases A2 with
    | nil =>
      simp only [opStep] at heq
      rw [popFront_empty hg2] at heq
      exact absurd heq (by simp)
    | cons a rest =>
      cases L2 with
      | nil =>
        have := valsMatch_length hg2.2.2.2.2
        simp at this
      | cons v vs =>
        obtain ⟨h5, d5, heq2, hg2x, hlen, hframe⟩ := popFront_spec hg2
        simp only [opStep] at heq
        rw [heq2] at heq
        simp only [Except.ok.injEq, Prod.mk.injEq] at heq
        obtain ⟨rfl, rfl⟩ := heq
        refine ⟨rest, vs, hg2x, ?_, ?_⟩
        · exact goodState_stable (fun b hb => hframe b (hdisj b hb)) hg1
        · intro b hb hmem
          exact hdisj b hb (List.mem_cons.mpr (Or.inr hmem))
  | popBack =>
    cases hA : A2.getLast? with
    | none =>
      have hAnil : A2 = [] := List.getLast?_eq_none_iff.mp hA
      subst hAnil
      simp only [opStep] at heq
      rw [popBack_empty hg2] at heq
      exact absurd heq (by simp)
    | some t =>
      have hAne : A2 ≠ [] := by
        intro he
        rw [he] at hA
        simp at hA
      obtain ⟨D, rfl⟩ : ∃ D, A2 = D ++ [t] := by
        refine ⟨A2.dropLast, ?_⟩
        exact (List.dropLast_append_getLast? t hA).symm
      have hLne : L2 ≠ [] := by
        intro he
        have := valsMatch_length hg2.2.2.2.2
        rw [he] at this
        simp at this
      obtain ⟨M, w, rfl⟩ : ∃ M w, L2 = M ++ [w] := by
        refine ⟨L2.dropLast, L2.getLast hLne, ?_⟩
        exact (List.dropLast_append_getLast hLne).symm
      obtain ⟨h5, d5, heq2, hg2x, hlen, hframe⟩ := popBack_spec hg2
      simp only [opStep] at heq
      rw [heq2] at heq
      simp only [Except.ok.injEq, Prod.mk.injEq] at heq
      obtain ⟨rfl, rfl⟩ := heq
      refine ⟨D, M, hg2x, ?_, ?_⟩
      · exact goodState_stable (fun b hb => hframe b (hdisj b hb)) hg1
      · intro b hb hmem
        exact hdisj b hb (List.mem_append.mpr (Or.inl hmem))

theorem sep_runFrom : ∀ {ops : List Op} {h : Heap} {d1 d2 : deque_t}
    {A1 A2 : List Nat} {L1 L2 : List Int} {h2 : Heap} {d2x : deque_t},
    GoodState h d1 A1 L1 → GoodState h d2 A2 L2 →
    (∀ a ∈ A1, a ∉ A2) →
    runFrom ops h d2 = .ok (h2, d2x) →
    ∃ A2x L2x, GoodState h2 d2x A2x L2x ∧ GoodState h2 d1 A1 L1 ∧
      (∀ a ∈ A1, a ∉ A2x) := by
  intro ops
  induction ops with
  | nil =>
    intro h d1 d2 A1 A2 L1 L2 h2 d2x hg1 hg2 hdisj heq
    simp only [runFrom, Except.ok.injEq, Prod.mk.injEq] at heq
    obtain ⟨rfl, rfl⟩ := heq
    exact ⟨A2, L2, hg2, hg1, hdisj⟩
  | cons o os ih =>
    intro h d1 d2 A1 A2 L1 L2 h2 d2x hg1 hg2 hdisj heq
    simp only [runFrom] at heq
    cases hstep : opStep o h d2 with
    | error e => rw [hstep] at heq; exact absurd heq (by simp)
    | ok s =>
      obtain ⟨hm, dm⟩ := s
      rw [hstep] at heq
      obtain ⟨A2m, L2m, hg2m, hg1m, hdisjm⟩ := sep_opStep hg1 hg2 hdisj hstep
      exact ih hg1m hg2m hdisjm heq

/-! Copy loop and clear loop. -/

theorem copyLoop_spec : ∀ {S : List Nat} {h : Heap} {pv cur : Option Nat}
    {VS : List Int} {acc : deque_t} {Aacc : List Nat} {Lacc : List Int},
    chainSeg h pv cur S none = true → valsMatch h S VS = true →
    GoodState h acc Aacc Lacc →
    (∀ a ∈ S, a ∉ Aacc) →
    ∃ h2 acc2 A2, copyLoop h acc cur S.length = .ok (h2, acc2) ∧
      GoodState h2 acc2 (Aacc ++ A2) (Lacc ++ VS) ∧
      h.length ≤ h2.length ∧
      (∀ b, b < h.length → b ∉ Aacc → readNode h2 b = readNode h b) ∧
      (∀ a ∈ A2, h.length ≤ a) := by
  intro S
  induction S with
  | nil =>
    intro h pv cur VS acc Aacc Lacc hch hvm hgacc _
    rw [chainSeg_nil.mp hch, valsMatch_nil_iff.mp hvm]
    exact ⟨h, acc, [], rfl, by simpa using hgacc, le_refl _,
      fun b _ _ => rfl, by simp⟩
  | cons a S2 ih =>
    intro h pv cur VS acc Aacc Lacc hch hvm hgacc hdisj
    obtain ⟨hcur, ndA, hrA, hprevA, hchS2⟩ := chainSeg_cons_elim hch
    obtain ⟨v, vs, ndA2, rfl, hrA2, hvalA, hvmS2⟩ := valsMatch_cons_iff.mp hvm
    rw [hrA] at hrA2
    obtain rfl : ndA = ndA2 := by simpa using hrA2
    obtain ⟨h5, acc5, heq5, hgacc5, hlen5, hframe5⟩ := pushBack_spec ndA.value hgacc
    have hbdS2 : ∀ b ∈ S2, b < h.length := chainSeg_bounded hchS2
    have hstS2 : ∀ b ∈ S2, readNode h5 b = readNode h b := by
      intro b hb
      exact hframe5 b (hbdS2 b hb) (hdisj b (List.mem_cons.mpr (Or.inr hb)))
    have hchS2_5 : chainSeg h5 (some a) ndA.next S2 none = true :=
      chainSeg_stable hstS2 hchS2
    have hvmS2_5 : valsMatch h5 S2 vs = true :=
      valsMatch_stable (fun b hb => by rw [hstS2 b hb]) hvmS2
    have hdisj5 : ∀ b ∈ S2, b ∉ Aacc ++ [h.length] := by
      intro b hb hmem
      rcases List.mem_append.mp hmem with hmem2 | hmem2
      · exact hdisj b (List.mem_cons.mpr (Or.inr hb)) hmem2
      · have : b = h.length := by simpa using hmem2
        exact absurd (hbdS2 b hb) (by omega)
    obtain ⟨h2, acc2, A2, heq2, hgood2, hlen2, hframe2, hfresh2⟩ :=
      ih hchS2_5 hvmS2_5 hgacc5 hdisj5
    refine ⟨h2, acc2, h.length :: A2, ?_, ?_, ?_, ?_, ?_⟩
    · rw [hcur]
      simp only [List.length_cons, copyLoop, hrA, heq5]
      exact heq2
    · have e1 : Aacc ++ h.length :: A2 = (Aacc ++ [h.length]) ++ A2 := by simp
      rw [hvalA] at hgood2
      rw [e1, show Lacc ++ v :: vs = (Lacc ++ [v]) ++ vs from by simp]
      exact hgood2
    · omega
    · intro b hb hbni
      rw [hframe2 b (by omega) ?_, hframe5 b hb hbni]
      intro hmem
      rcases List.mem_append.mp hmem with hmem2 | hmem2
      · exact hbni hmem2
      · have : b = h.length := by simpa using hmem2
        omega
    · intro b hb
      rcases List.mem_cons.mp hb with rfl | hb2
      · exact le_refl _
      · exact le_trans (by omega) (hfresh2 b hb2)

theorem clearLoop_spec : ∀ {n : Nat} {h : Heap} {d : deque_t} {A : List Nat}
    {L : List Int}, GoodState h d A L → A.length = n →
    ∃ h2, ClearLoop h d n = .ok (h2, ⟨none, none, 0⟩) ∧
      h2.length = h.length ∧
      (∀ b, b ∉ A → readNode h2 b = readNode h b) := by
  intro n
  induction n with
  | zero =>
    intro h d A L hg hn
    have hA : A = [] := List.length_eq_zero.mp hn
    subst hA
    have hhd : d.head = none := chainSeg_nil.mp hg.1
    have htt : d.tail = none := by simpa [lastPtr] using hg.2.1
    have hsz : d.size = 0 := by simpa using hg.2.2.1
    have hd : d = ⟨none, none, 0⟩ := by
      cases d
      simp_all
    refine ⟨h, ?_, rfl, fun b _ => rfl⟩
    rw [hd]
    rfl
  | succ n ih =>
    intro h d A L hg hn
    have hAne : A ≠ [] := by
      intro he
      rw [he] at hn
      simp at hn
    cases hA : A.getLast? with
    | none => exact absurd (List.getLast?_eq_none_iff.mp hA) hAne
    | some t =>
      obtain ⟨D, rfl⟩ : ∃ D, A = D ++ [t] := by
        refine ⟨A.dropLast, ?_⟩
        exact (List.dropLast_append_getLast? t hA).symm
      have hLne : L ≠ [] := by
        intro he
        have := valsMatch_length hg.2.2.2.2
        rw [he] at this
        simp at this
      obtain ⟨M, w, rfl⟩ : ∃ M w, L = M ++ [w] := by
        refine ⟨L.dropLast, L.getLast hLne, ?_⟩
        exact (List.dropLast_append_getLast hLne).symm
      have hhd : d.head ≠ none := by
        intro he
        have := (chain_head_none_iff hg.1).mp he
        simp at this
      obtain ⟨h5, d5, heq5, hg5, hlen5, hframe5⟩ := popBack_spec hg
      have hDn : D.length = n := by
        simp at hn
        omega
      obtain ⟨h2, heq2, hlen2, hframe2⟩ := ih hg5 hDn
      refine ⟨h2, ?_, by omega, ?_⟩
      · simp only [ClearLoop]
        rw [if_neg hhd, heq5]
        exact heq2
      · intro b hb
        rw [hframe2 b (fun hmem => hb (List.mem_append.mpr (Or.inl hmem))),
            hframe5 b hb]

theorem goodState_empty_any (h : Heap) : GoodState h emptyDeque [] [] := by
  refine ⟨by simp [chainSeg, emptyDeque], by simp [lastPtr, emptyDeque],
    by simp [emptyDeque], by simp, by simp [valsMatch]⟩

theorem lastPtr_none_eq_some {A : List Nat} {t : Nat}
    (hl : lastPtr none A = some t) : A.getLast? = some t := by
  cases hA : A.getLast? with
  | none =>
    rw [show lastPtr none A = none from by simp [lastPtr, hA]] at hl
    exact absurd hl (by simp)
  | some u =>
    rw [show lastPtr none A = some u from by simp [lastPtr, hA]] at hl
    exact hl

/-- C1: for every sequence of PushFront/PushBack/PopFront/PopBack operations
starting from the empty deque (every pop hitting a non-empty deque, as
captured by the list-level semantics `specRun` succeeding), `Size()` equals
the number of elements pushed minus the number popped, and iterating
front-to-back from `begin()` towards `end()` yields exactly the elements in
the order implied by the operation sequence. -/
theorem C1_sequence_size_and_order (ops : List Op) (L : List Int)
    (hs : specRun [] ops = some L) :
    ∃ h d, runFrom ops [] emptyDeque = .ok (h, d) ∧
      deque_t.Size d = L.length ∧
      iterCollect h (deque_t.beginIter d) (deque_t.Size d) = some L ∧
      cntPop ops ≤ cntPush ops ∧
      deque_t.Size d = cntPush ops - cntPop ops := by
  obtain ⟨h2, d2, A2, heq, hg⟩ := runFrom_ref goodState_init hs
  have hcnt := specRun_count hs
  simp only [List.length_nil] at hcnt
  have hlen : A2.length = L.length := valsMatch_length hg.2.2.2.2
  have hsz : deque_t.Size d2 = L.length := by
    rw [deque_t.Size, hg.2.2.1, hlen]
  refine ⟨h2, d2, heq, hsz, ?_, by omega, by omega⟩
  rw [deque_t.Size, deque_t.beginIter, hg.2.2.1]
  exact collect_of_chain hg.1 hg.2.2.2.2

theorem C1_witness :
    ∃ h d, runFrom [Op.pushBack 1, Op.pushBack 2, Op.pushFront 0, Op.popBack]
        [] emptyDeque = .ok (h, d) ∧
      deque_t.Size d = ([0, 1] : List Int).length ∧
      iterCollect h (deque_t.beginIter d) (deque_t.Size d) = some [0, 1] ∧
      cntPop [Op.pushBack 1, Op.pushBack 2, Op.pushFront 0, Op.popBack] ≤
        cntPush [Op.pushBack 1, Op.pushBack 2, Op.pushFront 0, Op.popBack] ∧
      deque_t.Size d =
        cntPush [Op.pushBack 1, Op.pushBack 2, Op.pushFront 0, Op.popBack] -
          cntPop [Op.pushBack 1, Op.pushBack 2, Op.pushFront 0, Op.popBack] :=
  C1_sequence_size_and_order
    [Op.pushBack 1, Op.pushBack 2, Op.pushFront 0, Op.popBack] [0, 1] (by decide)

/-- C2: on an empty deque (`count == 0`, equivalently null `head`/`tail` under
the representation invariant), `GetFront`, `GetBack`, `PopFront` and `PopBack`
each raise the EmptyContainer error, and the deque's state (heap, `head`,
`tail`, `size`) is unchanged by the failed call: the throw in the source
precedes every mutation, so the caller that catches the exception still holds
the original state (`tryOp`). -/
theorem C2_empty_container_errors {h : Heap} {d : deque_t} {A : List Nat}
    {L : List Int} (hg : GoodState h d A L) (hsz : deque_t.Size d = 0) :
    deque_t.GetFront h d = .error .emptyContainer ∧
    deque_t.GetBack h d = .error .emptyContainer ∧
    deque_t.PopFront h d = .error .emptyContainer ∧
    deque_t.PopBack h d = .error .emptyContainer ∧
    tryOp (deque_t.PopFront h d) (h, d) = (h, d) ∧
    tryOp (deque_t.PopBack h d) (h, d) = (h, d) := by
  have hA : A = [] := by
    have hx := hg.2.2.1
    rw [deque_t.Size] at hsz
    rw [hsz] at hx
    exact (List.length_eq_zero.mp hx.symm)
  subst hA
  have h1 := getFront_empty hg
  have h2 := getBack_empty hg
  have h3 := popFront_empty hg
  have h4 := popBack_empty hg
  exact ⟨h1, h2, h3, h4, by rw [h3]; rfl, by rw [h4]; rfl⟩

theorem C2_witness :
    deque_t.GetFront [] emptyDeque = .error .emptyContainer ∧
    deque_t.GetBack [] emptyDeque = .error .emptyContainer ∧
    deque_t.PopFront [] emptyDeque = .error .emptyContainer ∧
    deque_t.PopBack [] emptyDeque = .error .emptyContainer ∧
    tryOp (deque_t.PopFront [] emptyDeque) ([], emptyDeque) = ([], emptyDeque) ∧
    tryOp (deque_t.PopBack [] emptyDeque) ([], emptyDeque) = ([], emptyDeque) :=
  C2_empty_container_errors (goodState_empty_any []) (by decide)

/-- C3: the spec requires that an allocation failure in `PushFront`/`PushBack`
propagates an out-of-memory condition to the caller with the deque left in its
pre-call state.  The code does not satisfy this: `my_allocator_t::alloc` is
`return malloc(size);`, which returns a null pointer on failure without
throwing, and the push methods immediately execute `tmp->value = elem` without
checking `tmp`, so an allocation failure produces a write through a null
pointer (undefined behaviour) rather than a propagated OutOfMemory error.
This theorem evaluates the code on the failing path: with the allocator
failing, both push operations end in the null-dereference outcome, which is
not the OutOfMemory outcome the spec requires. -/
theorem C3_alloc_failure_is_null_write (h : Heap) (d : deque_t) (x : Int) :
    deque_t.PushBack false h d x = .error .nullDeref ∧
    deque_t.PushFront false h d x = .error .nullDeref ∧
    Err.nullDeref ≠ Err.outOfMemory :=
  ⟨rfl, rfl, by decide⟩

/-- C4: the spec says retreating (`operator--`) an iterator at the sentinel
(`end()`) resolves to `tail`, and retreating at `head` raises
IteratorOutOfRange.  The code's guard `if (curNode->prev == nullptr)`
dereferences `curNode` before the `curNode == nullptr` check, so retreating
from the sentinel is a null dereference and the `curNode = tail` branch is
dead code; retreating at `head` does raise the error as specified.  Evaluated
here on the one-element deque `[1]` (node at address 0): retreat from `end()`
crashes with a null dereference instead of resolving to `tail`, while retreat
at `head` raises IteratorOutOfRange. -/
theorem C4_retreat_from_sentinel_crashes :
    (∀ (h : Heap) (tl : Option Nat), iterDec h tl endIter = .error .nullDeref) ∧
    iterDec [some (node_t.mk 1 none none)] (some 0) endIter ≠ .ok (some 0) ∧
    iterDec [some (node_t.mk 1 none none)] (some 0) (some 0) =
      .error .iteratorOutOfRange := by
  refine ⟨fun _ _ => rfl, ?_, rfl⟩
  intro hc
  have e : iterDec [some (node_t.mk 1 none none)] (some 0) endIter =
      .error .nullDeref := rfl
  rw [e] at hc
  exact absurd hc (by simp)

/-- C5: every deque state reachable by any sequence of (successful) push/pop
operations from the default-constructed deque satisfies the structural
invariants: `head` is absent iff `tail` is absent iff `count == 0`; if
`count == 1` then `head == tail`; the head node's `previous` is absent; the
tail node's `next` is absent; and for any two adjacent nodes A then B in the
chain, A's `next` references B and B's `previous` references A. -/
theorem C5_reachable_invariants {h : Heap} {d : deque_t} (hr : Reach h d) :
    ∃ A L, GoodState h d A L ∧
      ((d.head = none) ↔ (d.tail = none)) ∧
      ((d.head = none) ↔ d.size = 0) ∧
      (d.size = 1 → d.head = d.tail) ∧
      (∀ a nd, d.head = some a → readNode h a = some nd → nd.prev = none) ∧
      (∀ t nd, d.tail = some t → readNode h t = some nd → nd.next = none) ∧
      (∀ i a b, A[i]? = some a → A[i + 1]? = some b →
        ∃ na nb, readNode h a = some na ∧ readNode h b = some nb ∧
          na.next = some b ∧ nb.prev = some a) := by
  obtain ⟨A, L, hg⟩ := reach_good hr
  obtain ⟨hch, htl, hsz, hnd, hvm⟩ := hg
  have hhdA : d.head = none ↔ A = [] := chain_head_none_iff hch
  have htlA : d.tail = none ↔ A = [] := by
    rw [htl]
    exact lastPtr_none_iff
  refine ⟨A, L, ⟨hch, htl, hsz, hnd, hvm⟩, ?_, ?_, ?_, ?_, ?_, ?_⟩
  · rw [hhdA, htlA]
  · rw [hhdA, hsz]
    simp [List.length_eq_zero]
  · intro h1
    rw [hsz] at h1
    cases A with
    | nil => simp at h1
    | cons a rest =>
      cases rest with
      | nil =>
        obtain ⟨hcur, _, _, _, _⟩ := chainSeg_cons_elim hch
        rw [hcur, htl]
        simp [lastPtr]
      | cons b rest2 => simp at h1
  · intro a nd ha hr2
    have hAne : A ≠ [] := by
      intro he
      rw [(chain_head_none_iff hch).mpr he] at ha
      simp at ha
    exact chain_first_prev hch ha hr2 hAne
  · intro t nd ht hr2
    have hgl : A.getLast? = some t := lastPtr_none_eq_some (ht ▸ htl.symm)
    exact chain_last_next hch hgl hr2
  · exact chain_adjacent hch

theorem C5_witness :
    ∃ A L, GoodState [some (node_t.mk 1 none none)] ⟨some 0, some 0, 1⟩ A L ∧
      (((⟨some 0, some 0, 1⟩ : deque_t).head = none) ↔
        ((⟨some 0, some 0, 1⟩ : deque_t).tail = none)) ∧
      (((⟨some 0, some 0, 1⟩ : deque_t).head = none) ↔
        (⟨some 0, some 0, 1⟩ : deque_t).size = 0) ∧
      ((⟨some 0, some 0, 1⟩ : deque_t).size = 1 →
        (⟨some 0, some 0, 1⟩ : deque_t).head = (⟨some 0, some 0, 1⟩ : deque_t).tail) ∧
      (∀ a nd, (⟨some 0, some 0, 1⟩ : deque_t).head = some a →
        readNode [some (node_t.mk 1 none none)] a = some nd → nd.prev = none) ∧
      (∀ t nd, (⟨some 0, some 0, 1⟩ : deque_t).tail = some t →
        readNode [some (node_t.mk 1 none none)] t = some nd → nd.next = none) ∧
      (∀ i a b, A[i]? = some a → A[i + 1]? = some b →
        ∃ na nb, readNode [some (node_t.mk 1 none none)] a = some na ∧
          readNode [some (node_t.mk 1 none none)] b = some nb ∧
          na.next = some b ∧ nb.prev = some a) :=
  C5_reachable_invariants (Reach.pushB Reach.init rfl)

/-- C7: concatenating with transfer semantics (`AddOtherDeque` on an rvalue)
appends all of the source's nodes after the destination's tail in order,
allocates no new node (the heap length is unchanged), sets the destination's
count to the sum of the two counts, and leaves the source empty
(`head`/`tail` absent, count 0). -/
theorem C7_concat_transfer {h : Heap} {d other : deque_t} {A B : List Nat}
    {L M : List Int} (hg1 : GoodState h d A L) (hg2 : GoodState h other B M)
    (hdisj : ∀ a ∈ A, a ∉ B) :
    ∃ h2 d2 o2, deque_t.AddOtherDequeMove h d other = .ok (h2, d2, o2) ∧
      GoodState h2 d2 (A ++ B) (L ++ M) ∧
      iterCollect h2 (deque_t.beginIter d2) (deque_t.Size d2) = some (L ++ M) ∧
      deque_t.Size d2 = deque_t.Size d + deque_t.Size other ∧
      o2 = emptyDeque ∧ deque_t.IsEmpty o2 = true ∧
      h2.length = h.length := by
  obtain ⟨h2, d2, o2, heq, hg, ho, hsz, hlen, _⟩ := addOtherMove_spec hg1 hg2 hdisj
  refine ⟨h2, d2, o2, heq, hg, ?_, hsz, ho, ?_, hlen⟩
  · rw [deque_t.Size, deque_t.beginIter, hg.2.2.1]
    exact collect_of_chain hg.1 hg.2.2.2.2
  · rw [ho]
    rfl

theorem C7_witness :
    ∃ h2 d2 o2,
      deque_t.AddOtherDequeMove
        [some (node_t.mk 1 none (some 1)), some (node_t.mk 2 (some 0) none),
         some (node_t.mk 3 none (some 3)), some (node_t.mk 4 (some 2) none)]
        ⟨some 0, some 1, 2⟩ ⟨some 2, some 3, 2⟩ = .ok (h2, d2, o2) ∧
      GoodState h2 d2 ([0, 1] ++ [2, 3]) (([1, 2] : List Int) ++ [3, 4]) ∧
      iterCollect h2 (deque_t.beginIter d2) (deque_t.Size d2) =
        some (([1, 2] : List Int) ++ [3, 4]) ∧
      deque_t.Size d2 = deque_t.Size (⟨some 0, some 1, 2⟩ : deque_t) +
        deque_t.Size (⟨some 2, some 3, 2⟩ : deque_t) ∧
      o2 = emptyDeque ∧ deque_t.IsEmpty o2 = true ∧
      h2.length =
        [some (node_t.mk 1 none (some 1)), some (node_t.mk 2 (some 0) none),
         some (node_t.mk 3 none (some 3)), some (node_t.mk 4 (some 2) none)].length :=
  C7_concat_transfer (A := [0, 1]) (B := [2, 3]) (L := [1, 2]) (M := [3, 4])
    (by decide) (by decide) (by decide)

/-- C8: for every well-formed deque, the sequence of elements visited by
reverse iteration from `rbegin()` to `rend()` is exactly the reversal of the
sequence visited by forward iteration from `begin()` to `end()`. -/
theorem C8_reverse_iteration {h : Heap} {d : deque_t} {A : List Nat}
    {L : List Int} (hg : GoodState h d A L) :
    iterCollect h (deque_t.beginIter d) (deque_t.Size d) = some L ∧
    revCollect h (deque_t.rbeginIter d) (deque_t.Size d) = some L.reverse := by
  obtain ⟨hch, htl, hsz, hnd, hvm⟩ := hg
  constructor
  · rw [deque_t.Size, deque_t.beginIter, hsz]
    exact collect_of_chain hch hvm
  · rw [deque_t.Size, deque_t.rbeginIter, hsz, htl]
    have hrc := chain_rev hch
    have hvr := valsMatch_reverse hvm
    have := revCollect_of_rchain hrc hvr
    simpa using this

theorem C8_witness :
    iterCollect
        [some (node_t.mk 1 none (some 1)), some (node_t.mk 2 (some 0) (some 2)),
         some (node_t.mk 3 (some 1) none)]
        (deque_t.beginIter ⟨some 0, some 2, 3⟩)
        (deque_t.Size ⟨some 0, some 2, 3⟩) = some [1, 2, 3] ∧
    revCollect
        [some (node_t.mk 1 none (some 1)), some (node_t.mk 2 (some 0) (some 2)),
         some (node_t.mk 3 (some 1) none)]
        (deque_t.rbeginIter ⟨some 0, some 2, 3⟩)
        (deque_t.Size ⟨some 0, some 2, 3⟩) = some ([1, 2, 3] : List Int).reverse :=
  C8_reverse_iteration (A := [0, 1, 2]) (L := [1, 2, 3]) (by decide)

/-- C10: `begin()` equals `end()` (pointer equality of the iterators) exactly
when the deque is empty: both iff `IsEmpty()` returns true and, under the
representation invariant, iff `Size()` is 0.  On an empty deque both
iterators are the sentinel, so forward iteration visits no elements. -/
theorem C10_begin_eq_end_iff_empty {h : Heap} {d : deque_t} {A : List Nat}
    {L : List Int} (hg : GoodState h d A L) :
    (iterEq (deque_t.beginIter d) endIter = true ↔ deque_t.IsEmpty d = true) ∧
    (iterEq (deque_t.beginIter d) endIter = true ↔ deque_t.Size d = 0) ∧
    (deque_t.IsEmpty d = true →
      iterCollect h (deque_t.beginIter d) (deque_t.Size d) = some []) := by
  have hhdA : d.head = none ↔ A = [] := chain_head_none_iff hg.1
  refine ⟨?_, ?_, ?_⟩
  · simp [iterEq, deque_t.beginIter, endIter, deque_t.IsEmpty]
  · simp only [iterEq, deque_t.beginIter, endIter, deque_t.Size,
      decide_eq_true_eq]
    rw [hhdA, hg.2.2.1]
    simp [List.length_eq_zero]
  · intro he
    have hhd : d.head = none := by simpa [deque_t.IsEmpty] using he
    rw [deque_t.beginIter, hhd]
    cases deque_t.Size d <;> rfl

theorem C10_witness :
    (iterEq (deque_t.beginIter emptyDeque) endIter = true ↔
      deque_t.IsEmpty emptyDeque = true) ∧
    (iterEq (deque_t.beginIter emptyDeque) endIter = true ↔
      deque_t.Size emptyDeque = 0) ∧
    (deque_t.IsEmpty emptyDeque = true →
      iterCollect [] (deque_t.beginIter emptyDeque)
        (deque_t.Size emptyDeque) = some []) :=
  C10_begin_eq_end_iff_empty (goodState_empty_any [])

/-- C9: copy construction (`deque_t(deque_t const&)`, modelled by `CopyDeque`)
and copy assignment (`operator=(deque_t const&)`, modelled by `CopyAssign`)
deep-copy every element into freshly allocated nodes preserving front-to-back
order: the copy holds the same value sequence, its node addresses are disjoint
from the source's, and the source is unchanged.  Moreover, mutating the copy
by an arbitrary operation sequence never changes the original's contents,
order or size, and mutating the original never changes the copy. -/
theorem C9_deep_copy_isolation {h : Heap} {src : deque_t} {A : List Nat}
    {L : List Int} (hg : GoodState h src A L) :
    ∃ h1 c A1, CopyDeque h src (deque_t.Size src) = .ok (h1, c) ∧
      GoodState h1 c A1 L ∧
      GoodState h1 src A L ∧
      (∀ a ∈ A, a ∉ A1) ∧
      (∀ ops h2 c2, runFrom ops h1 c = .ok (h2, c2) →
        iterCollect h2 (deque_t.beginIter src) (deque_t.Size src) = some L) ∧
      (∀ ops h2 s2, runFrom ops h1 src = .ok (h2, s2) →
        iterCollect h2 (deque_t.beginIter c) (deque_t.Size c) = some L) ∧
      (∀ (dst : deque_t) (B : List Nat) (M : List Int),
        GoodState h dst B M → (∀ a ∈ A, a ∉ B) →
        ∃ h3 c3 A3,
          CopyAssign h dst src (deque_t.Size dst) (deque_t.Size src) =
            .ok (h3, c3) ∧
          GoodState h3 c3 A3 L ∧ GoodState h3 src A L ∧
          (∀ a ∈ A, a ∉ A3)) := by
  obtain ⟨hch, htl, hsz, hnd, hvm⟩ := hg
  have hbA : ∀ a ∈ A, a < h.length := chainSeg_bounded hch
  have hCopyEq : CopyDeque h src (deque_t.Size src) =
      copyLoop h emptyDeque src.head A.length := by
    rw [CopyDeque, deque_t.Size, hsz]
  obtain ⟨h1, c, A1, heq1, hg1, hlen1, hframe1, hfresh1⟩ :=
    copyLoop_spec hch hvm (goodState_empty_any h) (fun a _ => List.not_mem_nil a)
  simp only [List.nil_append] at hg1
  have hgsrc1 : GoodState h1 src A L :=
    goodState_stable
      (fun a ha => hframe1 a (hbA a ha) (List.not_mem_nil a))
      ⟨hch, htl, hsz, hnd, hvm⟩
  have hdisj1 : ∀ a ∈ A, a ∉ A1 := by
    intro a ha hmem
    have h1x := hfresh1 a hmem
    have h2x := hbA a ha
    omega
  refine ⟨h1, c, A1, by rw [hCopyEq]; exact heq1, hg1, hgsrc1, hdisj1, ?_, ?_, ?_⟩
  · intro ops h2 c2 hrun
    obtain ⟨A2x, L2x, _, hgsrc2, _⟩ := sep_runFrom hgsrc1 hg1 hdisj1 hrun
    rw [deque_t.Size, deque_t.beginIter, hsz]
    exact collect_of_chain hgsrc2.1 hgsrc2.2.2.2.2
  · intro ops h2 s2 hrun
    have hdisj1r : ∀ a ∈ A1, a ∉ A := fun a ha hmem => hdisj1 _ hmem ha
    obtain ⟨A2x, L2x, _, hgc2, _⟩ := sep_runFrom hg1 hgsrc1 hdisj1r hrun
    rw [deque_t.Size, deque_t.beginIter, hg1.2.2.1]
    exact collect_of_chain hgc2.1 hgc2.2.2.2.2
  · intro dst B M hgdst hdisjB
    have hBn : B.length = deque_t.Size dst := by
      rw [deque_t.Size, hgdst.2.2.1]
    obtain ⟨hC, heqC, hlenC, hframeC⟩ := clearLoop_spec hgdst hBn
    have hgsrcC : GoodState hC src A L :=
      goodState_stable (fun a ha => hframeC a (hdisjB a ha))
        ⟨hch, htl, hsz, hnd, hvm⟩
    have hgood0 : GoodState hC (⟨none, none, 0⟩ : deque_t) [] [] :=
      goodState_empty_any hC
    obtain ⟨h3, c3, A3, heq3, hg3, hlen3, hframe3, hfresh3⟩ :=
      copyLoop_spec hgsrcC.1 hgsrcC.2.2.2.2 hgood0 (fun a _ => List.not_mem_nil a)
    have hgsrc3 : GoodState h3 src A L :=
      goodState_stable
        (fun a ha => hframe3 a (by rw [hlenC]; exact hbA a ha)
          (List.not_mem_nil a))
        hgsrcC
    have hdisj3 : ∀ a ∈ A, a ∉ A3 := by
      intro a ha hmem
      have h1x := hfresh3 a hmem
      have h2x := hbA a ha
      rw [hlenC] at h1x
      omega
    refine ⟨h3, c3, A3, ?_, by simpa using hg3, hgsrc3, hdisj3⟩
    simp only [CopyAssign, heqC]
    rw [show deque_t.Size src = A.length from by rw [deque_t.Size, hsz]]
    exact heq3

theorem C9_witness :
    ∃ h1 c A1,
      CopyDeque [some (node_t.mk 7 none none)] ⟨some 0, some 0, 1⟩
        (deque_t.Size ⟨some 0, some 0, 1⟩) = .ok (h1, c) ∧
      GoodState h1 c A1 [7] ∧
      GoodState h1 ⟨some 0, some 0, 1⟩ [0] [7] ∧
      (∀ a ∈ [0], a ∉ A1) ∧
      (∀ ops h2 c2, runFrom ops h1 c = .ok (h2, c2) →
        iterCollect h2 (deque_t.beginIter ⟨some 0, some 0, 1⟩)
          (deque_t.Size ⟨some 0, some 0, 1⟩) = some [7]) ∧
      (∀ ops h2 s2, runFrom ops h1 ⟨some 0, some 0, 1⟩ = .ok (h2, s2) →
        iterCollect h2 (deque_t.beginIter c) (deque_t.Size c) = some [7]) ∧
      (∀ (dst : deque_t) (B : List Nat) (M : List Int),
        GoodState [some (node_t.mk 7 none none)] dst B M →
        (∀ a ∈ [0], a ∉ B) →
        ∃ h3 c3 A3,
          CopyAssign [some (node_t.mk 7 none none)] dst ⟨some 0, some 0, 1⟩
            (deque_t.Size dst) (deque_t.Size ⟨some 0, some 0, 1⟩) =
            .ok (h3, c3) ∧
          GoodState h3 c3 A3 [7] ∧ GoodState h3 ⟨some 0, some 0, 1⟩ [0] [7] ∧
          (∀ a ∈ [0], a ∉ A3)) :=
  C9_deep_copy_isolation (A := [0]) (L := [7]) (by decide)
